import Mathlib

/-!
# Separate-chaining hash table `itis::HashTable` (src/src/hash_table.cpp)

Shallow embedding of the container of `hash_table.cpp`.

* `int` keys, sizes and indices are `Int`; `std::string` values are `String`.
* `double` is `Double`: NaN, the infinities and the finite values, with comparisons that
  are false on NaN. The quotient `static_cast<double>(num_keys_) / buckets_.size()` is
  the exact quotient rounded to 53 significant bits, to nearest, ties to even. The
  conversions of the `int` and of the `size_t` to `double` are exact below `2^53`, and
  a quotient of an `int` by a `size_t` is far from the overflow and underflow thresholds
  of binary64, so the rounding has no exponent bound.
* A bucket (`std::list<std::pair<int, std::string>>`) is a list of pairs, the bucket
  array (`std::vector<Bucket>`) a list of buckets.
* `utils::hash` and `kGrowthCoefficient` are declared in headers that are not part of
  `src/`; every definition takes them as the parameters `utils_hash` and
  `kGrowthCoefficient`.
* `buckets_[index]` with an index outside the vector is undefined behaviour in the
  source; the embedding makes it the failure `none` of the operation.
* A constructor that throws returns `Except.error` with the message of the exception.
-/

namespace itis

/-- Values of the C++ type `double` (IEEE binary64): NaN, the two infinities and the
finite values. A finite value is held as a rational; the binary64 values are the
rationals that `roundBinary64` leaves unchanged. -/
inductive Double
  | nan
  | inf (negative : Bool)
  | fin (value : ℚ)
deriving DecidableEq

namespace Double

/-- Comparison `x <= y` of two `double`s; false when one of them is NaN. -/
def le : Double → Double → Bool
  | fin x, fin y => decide (x ≤ y)
  | fin _, inf negative => !negative
  | inf negative, fin _ => negative
  | inf negative, inf negative' => negative || !negative'
  | _, _ => false

/-- Comparison `x < y` of two `double`s; false when one of them is NaN. -/
def lt : Double → Double → Bool
  | fin x, fin y => decide (x < y)
  | fin _, inf negative => !negative
  | inf negative, fin _ => negative
  | inf negative, inf negative' => negative && !negative'
  | _, _ => false

/-- Comparison `x >= y`. -/
def ge (x y : Double) : Bool := le y x

/-- Comparison `x > y`. -/
def gt (x y : Double) : Bool := lt y x

/-- Rounding to the nearest integer, ties to the even one. -/
def roundTiesEven (x : ℚ) : Int :=
  if x - (⌊x⌋ : ℚ) < 1 / 2 then ⌊x⌋
  else if 1 / 2 < x - (⌊x⌋ : ℚ) then ⌊x⌋ + 1
  else if ⌊x⌋ % 2 = 0 then ⌊x⌋ else ⌊x⌋ + 1

/-- Rounding of a rational to 53 significant bits, to the nearest value, ties to even:
the rounding of binary64 arithmetic between its underflow and overflow thresholds. -/
def roundBinary64 (x : ℚ) : ℚ :=
  if x = 0 then 0
  else (roundTiesEven (x / (2 : ℚ) ^ (Int.log 2 |x| - 52)) : ℚ) * (2 : ℚ) ^ (Int.log 2 |x| - 52)

/-- The quotient `static_cast<double>(n) / d` of an `int` by a `size_t`. -/
def quotient (n : Int) (d : Nat) : Double :=
  if d = 0 then (if 0 < n then inf false else if n < 0 then inf true else nan)
  else fin (roundBinary64 ((n : ℚ) / (d : ℚ)))

end Double

/-- The literal `0.1`: the binary64 value nearest to one tenth. -/
def double_0_1 : Double := Double.fin (3602879701896397 / 36028797018963968)

/-- A stored `std::pair<int, std::string>`. -/
abbrev Pair := Int × String

/-- A chain of pairs, in insertion order. -/
abbrev Bucket := List Pair

/-- The data members of `HashTable`. -/
structure HashTable where
  buckets_ : List Bucket
  num_keys_ : Int
  load_factor_ : Double
deriving DecidableEq

/-- Message of the exception thrown for a non-positive capacity. -/
def capacityError : String := "hash table capacity must be greater than zero"

/-- Message of the exception thrown for a load factor outside `(0, 1]`. -/
def loadFactorError : String := "hash table load factor must be in range [0...1]"

/-- Element access `buckets[index]` with an `int` index; `none` outside the vector. -/
def bucketAt (buckets : List Bucket) (index : Int) : Option Bucket :=
  if 0 ≤ index then buckets[index.toNat]? else none

/-- The statement `buckets[index].push_back(pair)`. -/
def pushBackAt (buckets : List Bucket) (index : Int) (pair : Pair) : Option (List Bucket) :=
  (bucketAt buckets index).map fun b => buckets.set index.toNat (b ++ [pair])

namespace HashTable

/-- Private member `HashTable::hash`. -/
def hash (utils_hash : Int → Int → Int) (t : HashTable) (key : Int) : Int :=
  utils_hash key (t.buckets_.length : Int)

/-- Constructor `HashTable::HashTable(int capacity, double load_factor)`. The constructor
does not write `num_keys_`; its default member initialiser is in the absent header, and
is `0` according to the spec ("On success, allocates `capacity` empty buckets,
`size = 0`"). -/
def new (capacity : Int) (load_factor : Double) : Except String HashTable :=
  if capacity ≤ 0 then
    Except.error capacityError
  else if Double.le load_factor (Double.fin 0) || Double.gt load_factor (Double.fin 1) then
    Except.error loadFactorError
  else
    Except.ok
      { buckets_ := List.replicate capacity.toNat [], num_keys_ := 0, load_factor_ := load_factor }

/-- Method `HashTable::Search`: the value of the first pair of the bucket whose key matches. -/
def Search (utils_hash : Int → Int → Int) (t : HashTable) (key : Int) :
    Option (Option String) :=
  (bucketAt t.buckets_ (t.hash utils_hash key)).map fun b =>
    (b.find? fun pair => decide (pair.1 = key)).map Prod.snd

/-- The first loop of `HashTable::Put`: overwrite the value of the first pair whose key
matches; `none` when the loop ends without a match. -/
def putLoop (key : Int) (value : String) : Bucket → Option Bucket
  | [] => none
  | pair :: rest =>
    if pair.1 = key then some ((pair.1, value) :: rest)
    else (putLoop key value rest).map fun rest' => pair :: rest'

/-- The inner loop of the resize in `HashTable::Put`, over the pairs of one bucket. -/
def rehashBucket (utils_hash : Int → Int → Int) (new_size : Nat) :
    List Bucket → Bucket → Option (List Bucket)
  | temp_buckets, [] => some temp_buckets
  | temp_buckets, pair :: rest =>
    (pushBackAt temp_buckets (utils_hash pair.1 (new_size : Int)) pair).bind fun temp =>
      rehashBucket utils_hash new_size temp rest

/-- The outer loop of the resize in `HashTable::Put`, over the buckets. -/
def rehashAll (utils_hash : Int → Int → Int) (new_size : Nat) :
    List Bucket → List Bucket → Option (List Bucket)
  | temp_buckets, [] => some temp_buckets
  | temp_buckets, bucket :: rest =>
    (rehashBucket utils_hash new_size temp_buckets bucket).bind fun temp =>
      rehashAll utils_hash new_size temp rest

/-- Method `HashTable::Put`. -/
def Put (utils_hash : Int → Int → Int) (kGrowthCoefficient : Nat) (t : HashTable)
    (key : Int) (value : String) : Option HashTable :=
  let index := t.hash utils_hash key
  match bucketAt t.buckets_ index with
  | none => none
  | some b =>
    match putLoop key value b with
    | some b' => some { t with buckets_ := t.buckets_.set index.toNat b' }
    | none =>
      let buckets := t.buckets_.set index.toNat (b ++ [(key, value)])
      let num_keys := t.num_keys_ + 1
      if Double.ge (Double.quotient num_keys buckets.length) t.load_factor_ then
        let new_size := buckets.length * kGrowthCoefficient
        (rehashAll utils_hash new_size (List.replicate new_size []) buckets).map fun temp =>
          { buckets_ := temp, num_keys_ := num_keys, load_factor_ := t.load_factor_ }
      else
        some { buckets_ := buckets, num_keys_ := num_keys, load_factor_ := t.load_factor_ }

/-- Method `HashTable::Remove`: at the first pair whose key matches, `std::list::remove`
erases every element of the bucket equal to that pair; `num_keys_` is not written. -/
def Remove (utils_hash : Int → Int → Int) (t : HashTable) (key : Int) :
    Option (Option String × HashTable) :=
  let index := t.hash utils_hash key
  match bucketAt t.buckets_ index with
  | none => none
  | some b =>
    match b.find? fun pair => decide (pair.1 = key) with
    | none => some (none, t)
    | some pair =>
      some (some pair.2,
        { t with buckets_ := t.buckets_.set index.toNat (b.filter fun q => decide (q ≠ pair)) })

/-- Method `HashTable::ContainsKey`. -/
def ContainsKey (utils_hash : Int → Int → Int) (t : HashTable) (key : Int) : Option Bool :=
  (t.Search utils_hash key).map Option.isSome

/-- Method `HashTable::size`. -/
def size (t : HashTable) : Int := t.num_keys_

/-- Method `HashTable::empty`. -/
def empty (t : HashTable) : Bool := decide (t.size = 0)

/-- Method `HashTable::capacity`. -/
def capacity (t : HashTable) : Int := (t.buckets_.length : Int)

/-- Method `HashTable::load_factor`. -/
def load_factor (t : HashTable) : Double := t.load_factor_

/-- The quotient `static_cast<double>(num_keys_) / buckets_.size()` that `Put` tests
against the load factor: the load `size() / capacity()` as a `double`. -/
def load (t : HashTable) : Double := Double.quotient t.num_keys_ t.buckets_.length

/-- Method `HashTable::keys`: every key of every bucket inserted into a set. -/
def keys (t : HashTable) : Finset Int :=
  t.buckets_.foldl (fun ks bucket => bucket.foldl (fun ks' pair => insert pair.1 ks') ks) ∅

/-- Method `HashTable::values`: every value of every bucket pushed back in order. -/
def values (t : HashTable) : List String :=
  t.buckets_.foldl (fun vs bucket => bucket.foldl (fun vs' pair => vs' ++ [pair.2]) vs) []

end HashTable

/-- Assumption on the absent `utils::hash(key, n)`: an index in `[0, n)` for `n ≥ 1`. -/
def HashInRange (utils_hash : Int → Int → Int) : Prop :=
  ∀ (key n : Int), 1 ≤ n → 0 ≤ utils_hash key n ∧ utils_hash key n < n

/-- Modelled from the spec: `utils::hash` is not in `src/`; the spec allows "a
multiplicative or modulo scheme", and this is the modulo scheme, used for concrete runs. -/
def modHash (key n : Int) : Int := key % n

/-- Tables reachable from a valid construction by `Put` and `Remove` calls. -/
inductive Reachable (utils_hash : Int → Int → Int) (kGrowthCoefficient : Nat) :
    HashTable → Prop
  | init (capacity : Int) (load_factor : Double) (t : HashTable) :
      HashTable.new capacity load_factor = Except.ok t →
      Reachable utils_hash kGrowthCoefficient t
  | put (t t' : HashTable) (key : Int) (value : String) :
      Reachable utils_hash kGrowthCoefficient t →
      t.Put utils_hash kGrowthCoefficient key value = some t' →
      Reachable utils_hash kGrowthCoefficient t'
  | remove (t t' : HashTable) (key : Int) (r : Option String) :
      Reachable utils_hash kGrowthCoefficient t →
      t.Remove utils_hash key = some (r, t') →
      Reachable utils_hash kGrowthCoefficient t'

/-- Tables reachable from the table `t0` by `Put` calls alone. -/
inductive PutReachableFrom (utils_hash : Int → Int → Int) (kGrowthCoefficient : Nat)
    (t0 : HashTable) : HashTable → Prop
  | refl : PutReachableFrom utils_hash kGrowthCoefficient t0 t0
  | put (t t' : HashTable) (key : Int) (value : String) :
      PutReachableFrom utils_hash kGrowthCoefficient t0 t →
      t.Put utils_hash kGrowthCoefficient key value = some t' →
      PutReachableFrom utils_hash kGrowthCoefficient t0 t'

/-- Tables reachable from the table `t0` by `Put` and `Remove` calls. -/
inductive ReachableFrom (utils_hash : Int → Int → Int) (kGrowthCoefficient : Nat)
    (t0 : HashTable) : HashTable → Prop
  | refl : ReachableFrom utils_hash kGrowthCoefficient t0 t0
  | put (t t' : HashTable) (key : Int) (value : String) :
      ReachableFrom utils_hash kGrowthCoefficient t0 t →
      t.Put utils_hash kGrowthCoefficient key value = some t' →
      ReachableFrom utils_hash kGrowthCoefficient t0 t'
  | remove (t t' : HashTable) (key : Int) (r : Option String) :
      ReachableFrom utils_hash kGrowthCoefficient t0 t →
      t.Remove utils_hash key = some (r, t') →
      ReachableFrom utils_hash kGrowthCoefficient t0 t'

/-- All pairs of a table, bucket after bucket. -/
def pairs (t : HashTable) : List Pair := t.buckets_.flatten

/-- Every pair of the bucket with index `i` hashes to `i` among `n` buckets. -/
def Placed (utils_hash : Int → Int → Int) (n : Nat) (bs : List Bucket) : Prop :=
  ∀ (i : Nat) (b : Bucket), bs[i]? = some b → ∀ p ∈ b, utils_hash p.1 (n : Int) = (i : Int)

/-- Invariant: at least one bucket, every pair in the bucket of its hash, no key twice. -/
structure WF (utils_hash : Int → Int → Int) (t : HashTable) : Prop where
  pos : 0 < t.buckets_.length
  placed : Placed utils_hash t.buckets_.length t.buckets_
  nodup : ((pairs t).map Prod.fst).Nodup

/-! Tables of the concrete runs, with `modHash` for `utils::hash` and the growth
coefficient `2`. -/

/-- The table `HashTable(4, 0.75)`. -/
def table4 : HashTable := ⟨[[], [], [], []], 0, Double.fin (3 / 4)⟩

/-- The table `HashTable(4, 0.75)` after `Put(1, "a")`. -/
def table4a : HashTable := ⟨[[], [(1, "a")], [], []], 1, Double.fin (3 / 4)⟩

/-- The table `HashTable(4, 0.75)` after `Put(1, "a")` and `Remove(1)`. -/
def table4r : HashTable := ⟨[[], [], [], []], 1, Double.fin (3 / 4)⟩

/-- The table `HashTable(1, 0.5)`. -/
def table1 : HashTable := ⟨[[]], 0, Double.fin (1 / 2)⟩

/-- The table `HashTable(1, 0.5)` after `Put(1, "a")`, which doubles the capacity. -/
def table1a : HashTable := ⟨[[], [(1, "a")]], 1, Double.fin (1 / 2)⟩

/-- The table `HashTable(4, 0.75)` after `Put(1, "a")` and `Put(2, "b")`. -/
def table4ab : HashTable := ⟨[[], [(1, "a")], [(2, "b")], []], 2, Double.fin (3 / 4)⟩

/-- The table `HashTable(4, 0.75)` after `Put(1, "a")`, `Put(2, "b")` and `Put(3, "c")`,
which doubles the capacity. -/
def table8 : HashTable :=
  ⟨[[], [(1, "a")], [(2, "b")], [(3, "c")], [], [], [], []], 3, Double.fin (3 / 4)⟩

/-- The table `HashTable(10, 0.1)`. -/
def table10 : HashTable := ⟨List.replicate 10 [], 0, double_0_1⟩

/-- The table `HashTable(4, NaN)`, which the constructor builds. -/
def table4nan : HashTable := ⟨[[], [], [], []], 0, Double.nan⟩

/-! ## Rounding to binary64 -/

namespace Double

theorem roundTiesEven_intCast (z : Int) : roundTiesEven (z : ℚ) = z := by
  simp [roundTiesEven]

theorem roundTiesEven_bounds (x : ℚ) :
    (⌊x⌋ ≤ roundTiesEven x) ∧ (roundTiesEven x ≤ ⌊x⌋ + 1) := by
  unfold roundTiesEven
  split
  · omega
  · split
    · omega
    · split <;> omega

theorem roundTiesEven_mono {x y : ℚ} (h : x ≤ y) : roundTiesEven x ≤ roundTiesEven y := by
  have hf : ⌊x⌋ ≤ ⌊y⌋ := Int.floor_mono h
  rcases hf.eq_or_lt with he | hl
  · unfold roundTiesEven
    rw [← he]
    have hxy : x - (⌊x⌋ : ℚ) ≤ y - (⌊x⌋ : ℚ) := by linarith
    split_ifs <;> first | omega | (exfalso; linarith)
  · have h1 := (roundTiesEven_bounds x).2
    have h2 := (roundTiesEven_bounds y).1
    omega

theorem roundTiesEven_of_lt_half (x : ℚ) (f : Int) (h1 : (f : ℚ) ≤ x)
    (h2 : x < (f : ℚ) + 1 / 2) : roundTiesEven x = f := by
  have hf : ⌊x⌋ = f := Int.floor_eq_iff.mpr ⟨h1, by linarith⟩
  unfold roundTiesEven
  rw [hf, if_pos (by linarith)]

theorem roundTiesEven_of_gt_half (x : ℚ) (f : Int) (h1 : (f : ℚ) + 1 / 2 < x)
    (h2 : x < (f : ℚ) + 1) : roundTiesEven x = f + 1 := by
  have hf : ⌊x⌋ = f := Int.floor_eq_iff.mpr ⟨by linarith, h2⟩
  unfold roundTiesEven
  rw [hf, if_neg (by linarith), if_pos (by linarith)]

theorem log_two_eq {x : ℚ} {e : Int} (hlo : (2 : ℚ) ^ e ≤ x) (hhi : x < (2 : ℚ) ^ (e + 1)) :
    Int.log 2 x = e := by
  have hx : 0 < x := lt_of_lt_of_le (zpow_pos (by norm_num) e) hlo
  have h1 : e ≤ Int.log 2 x := (Int.zpow_le_iff_le_log (by norm_num) hx).mp (by simpa using hlo)
  have h2 : Int.log 2 x < e + 1 :=
    (Int.lt_zpow_iff_log_lt (by norm_num) hx).mp (by simpa using hhi)
  omega

theorem roundBinary64_of_pos {x : ℚ} (hx : 0 < x) :
    roundBinary64 x =
      (roundTiesEven (x / (2 : ℚ) ^ (Int.log 2 x - 52)) : ℚ) * (2 : ℚ) ^ (Int.log 2 x - 52) := by
  simp [roundBinary64, hx.ne', abs_of_pos hx]

/-- Evaluation of the rounding from the binade of `x` and the rounded mantissa. -/
theorem roundBinary64_eq {x : ℚ} (e m : Int) (hlo : (2 : ℚ) ^ e ≤ x)
    (hhi : x < (2 : ℚ) ^ (e + 1)) (hm : roundTiesEven (x / (2 : ℚ) ^ (e - 52)) = m) :
    roundBinary64 x = (m : ℚ) * (2 : ℚ) ^ (e - 52) := by
  have hx : 0 < x := lt_of_lt_of_le (zpow_pos (by norm_num) e) hlo
  rw [roundBinary64_of_pos hx, log_two_eq hlo hhi, hm]

/-- A value with a mantissa of at most 53 bits is not changed by the rounding. -/
theorem roundBinary64_exact {x : ℚ} (e m : Int) (hlo : (2 : ℚ) ^ e ≤ x)
    (hhi : x < (2 : ℚ) ^ (e + 1)) (hx : x = (m : ℚ) * (2 : ℚ) ^ (e - 52)) :
    roundBinary64 x = x := by
  have hs : (0 : ℚ) < (2 : ℚ) ^ (e - 52) := zpow_pos (by norm_num) _
  have hm : roundTiesEven (x / (2 : ℚ) ^ (e - 52)) = m := by
    have : x / (2 : ℚ) ^ (e - 52) = (m : ℚ) := by
      rw [hx]; field_simp
    rw [this, roundTiesEven_intCast]
  rw [roundBinary64_eq e m hlo hhi hm, ← hx]

theorem roundBinary64_bounds {x : ℚ} (hx : 0 < x) :
    (2 : ℚ) ^ (Int.log 2 x) ≤ roundBinary64 x ∧
      roundBinary64 x ≤ (2 : ℚ) ^ (Int.log 2 x + 1) := by
  have h1 : (2 : ℚ) ^ (Int.log 2 x) ≤ x := by
    simpa using Int.zpow_log_le_self (show 1 < 2 by norm_num) hx
  have h2 : x < (2 : ℚ) ^ (Int.log 2 x + 1) := by
    simpa using Int.lt_zpow_succ_log_self (show 1 < 2 by norm_num) x
  have hs : (0 : ℚ) < (2 : ℚ) ^ (Int.log 2 x - 52) := zpow_pos (by norm_num) _
  have e1 : (((2 : Int) ^ 52 : Int) : ℚ) * (2 : ℚ) ^ (Int.log 2 x - 52) =
      (2 : ℚ) ^ (Int.log 2 x) := by
    have : (2 : ℚ) ^ (Int.log 2 x) = (2 : ℚ) ^ ((52 : Int) + (Int.log 2 x - 52)) := by
      congr 1; ring
    rw [this, zpow_add₀ (by norm_num)]
    norm_num
  have e2 : (((2 : Int) ^ 53 : Int) : ℚ) * (2 : ℚ) ^ (Int.log 2 x - 52) =
      (2 : ℚ) ^ (Int.log 2 x + 1) := by
    have : (2 : ℚ) ^ (Int.log 2 x + 1) = (2 : ℚ) ^ ((53 : Int) + (Int.log 2 x - 52)) := by
      congr 1; ring
    rw [this, zpow_add₀ (by norm_num)]
    norm_num
  have l1 : ((2 : Int) ^ 52 : Int) ≤ roundTiesEven (x / (2 : ℚ) ^ (Int.log 2 x - 52)) := by
    rw [← roundTiesEven_intCast ((2 : Int) ^ 52)]
    apply roundTiesEven_mono
    rw [le_div_iff₀ hs, e1]
    exact h1
  have l2 : roundTiesEven (x / (2 : ℚ) ^ (Int.log 2 x - 52)) ≤ ((2 : Int) ^ 53 : Int) := by
    rw [← roundTiesEven_intCast ((2 : Int) ^ 53)]
    apply roundTiesEven_mono
    rw [div_le_iff₀ hs, e2]
    exact h2.le
  rw [roundBinary64_of_pos hx]
  constructor
  · rw [← e1]
    exact mul_le_mul_of_nonneg_right (by exact_mod_cast l1) hs.le
  · rw [← e2]
    exact mul_le_mul_of_nonneg_right (by exact_mod_cast l2) hs.le

/-- The rounding is monotone on the positive rationals. -/
theorem roundBinary64_mono {x y : ℚ} (hx : 0 < x) (h : x ≤ y) :
    roundBinary64 x ≤ roundBinary64 y := by
  have hy : 0 < y := lt_of_lt_of_le hx h
  have hl : Int.log 2 x ≤ Int.log 2 y := Int.log_mono_right hx h
  rcases hl.eq_or_lt with he | hlt
  · rw [roundBinary64_of_pos hx, roundBinary64_of_pos hy, he]
    have hs : (0 : ℚ) < (2 : ℚ) ^ (Int.log 2 y - 52) := zpow_pos (by norm_num) _
    apply mul_le_mul_of_nonneg_right _ hs.le
    have : roundTiesEven (x / (2 : ℚ) ^ (Int.log 2 y - 52)) ≤
        roundTiesEven (y / (2 : ℚ) ^ (Int.log 2 y - 52)) :=
      roundTiesEven_mono (div_le_div_of_nonneg_right h hs.le)
    exact_mod_cast this
  · have h1 := (roundBinary64_bounds hx).2
    have h2 := (roundBinary64_bounds hy).1
    have h3 : (2 : ℚ) ^ (Int.log 2 x + 1) ≤ (2 : ℚ) ^ (Int.log 2 y) :=
      zpow_le_zpow_right₀ (by norm_num) (by omega)
    linarith

theorem roundBinary64_quarter : roundBinary64 (1 / 4) = 1 / 4 :=
  roundBinary64_exact (-2) (2 ^ 52) (by norm_num) (by norm_num) (by norm_num)

theorem roundBinary64_three_quarters : roundBinary64 (3 / 4) = 3 / 4 :=
  roundBinary64_exact (-1) (3 * 2 ^ 51) (by norm_num) (by norm_num) (by norm_num)

theorem roundBinary64_one : roundBinary64 1 = 1 :=
  roundBinary64_exact 0 (2 ^ 52) (by norm_num) (by norm_num) (by norm_num)

theorem roundBinary64_tenth :
    roundBinary64 (1 / 10) = 3602879701896397 / 36028797018963968 := by
  rw [roundBinary64_eq (-4) 7205759403792794 (by norm_num) (by norm_num)
    (roundTiesEven_of_gt_half _ 7205759403792793 (by norm_num) (by norm_num))]
  norm_num

end Double

/-! ## Lists of buckets -/

theorem getElem?_split {α : Type} : ∀ (bs : List α) (i : Nat) (b : α), bs[i]? = some b →
    ∃ pre post, bs = pre ++ b :: post ∧ pre.length = i
  | [], i, b, h => by simp at h
  | x :: xs, 0, b, h => by
    simp at h
    exact ⟨[], xs, by simp [h], rfl⟩
  | x :: xs, i + 1, b, h => by
    simp at h
    obtain ⟨pre, post, h1, h2⟩ := getElem?_split xs i b h
    exact ⟨x :: pre, post, by simp [h1], by simp [h2]⟩

theorem set_split {α : Type} (pre post : List α) (b b' : α) :
    (pre ++ b :: post).set pre.length b' = pre ++ b' :: post := by
  induction pre with
  | nil => simp
  | cons x xs ih => simp [ih]

theorem mem_flatten_iff_getElem? (bs : List Bucket) (p : Pair) :
    p ∈ bs.flatten ↔ ∃ (i : Nat) (b : Bucket), bs[i]? = some b ∧ p ∈ b := by
  constructor
  · intro h
    obtain ⟨b, hb, hp⟩ := List.mem_flatten.mp h
    obtain ⟨i, hi⟩ := List.mem_iff_getElem?.mp hb
    exact ⟨i, b, hi, hp⟩
  · rintro ⟨i, b, hi, hp⟩
    exact List.mem_flatten.mpr ⟨b, List.mem_iff_getElem?.mpr ⟨i, hi⟩, hp⟩

theorem flatten_set_perm (bs : List Bucket) (i : Nat) (b b' : Bucket) (h : bs[i]? = some b) :
    ∃ l r, bs.flatten = l ++ b ++ r ∧ (bs.set i b').flatten = l ++ b' ++ r := by
  obtain ⟨pre, post, h1, h2⟩ := getElem?_split bs i b h
  subst h2
  refine ⟨pre.flatten, post.flatten, ?_, ?_⟩
  · simp [h1]
  · rw [h1, set_split]; simp

/-- The first pair with key `k` in a list without repeated keys is the pair with key `k`. -/
theorem find?_key_of_mem (l : List Pair) (k : Int) (v : String)
    (hn : (l.map Prod.fst).Nodup) (hm : (k, v) ∈ l) :
    l.find? (fun pair => decide (pair.1 = k)) = some (k, v) := by
  induction l with
  | nil => simp at hm
  | cons x xs ih =>
    simp only [List.map_cons, List.nodup_cons] at hn
    rcases List.mem_cons.mp hm with h | h
    · subst h; simp
    · have hx : x.1 ≠ k := by
        intro hxk
        apply hn.1
        rw [hxk]
        exact List.mem_map.mpr ⟨(k, v), h, rfl⟩
      simp [List.find?_cons, hx, ih hn.2 h]

theorem find?_key_some (l : List Pair) (k : Int) (p : Pair)
    (h : l.find? (fun pair => decide (pair.1 = k)) = some p) : p ∈ l ∧ p.1 = k := by
  have h1 := List.mem_of_find?_eq_some h
  have h2 := List.find?_some h
  exact ⟨h1, by simpa using h2⟩

/-! ## The invariant of reachable tables -/

theorem bucketAt_some {bs : List Bucket} {i : Int} {b : Bucket} (h : bucketAt bs i = some b) :
    0 ≤ i ∧ bs[i.toNat]? = some b := by
  unfold bucketAt at h
  split at h
  · exact ⟨by assumption, h⟩
  · simp at h

theorem bucketAt_of_range (bs : List Bucket) (i : Int) (h0 : 0 ≤ i) (h1 : i < bs.length) :
    ∃ b, bucketAt bs i = some b ∧ bs[i.toNat]? = some b := by
  have hlt : i.toNat < bs.length := by omega
  refine ⟨bs[i.toNat], ?_, ?_⟩
  · simp [bucketAt, h0, List.getElem?_eq_getElem hlt]
  · exact List.getElem?_eq_getElem hlt

theorem bucketAt_hash {utils_hash : Int → Int → Int} (hr : HashInRange utils_hash)
    (bs : List Bucket) (n : Nat) (hn : bs.length = n) (hpos : 0 < n) (key : Int) :
    ∃ b, bucketAt bs (utils_hash key (n : Int)) = some b ∧
      bs[(utils_hash key (n : Int)).toNat]? = some b := by
  have h := hr key (n : Int) (by omega)
  exact bucketAt_of_range bs _ h.1 (by omega)

theorem Placed.set {utils_hash : Int → Int → Int} {n : Nat} {bs : List Bucket}
    (hp : Placed utils_hash n bs) (i : Nat) (b' : Bucket)
    (hb : ∀ p ∈ b', utils_hash p.1 (n : Int) = (i : Int)) :
    Placed utils_hash n (bs.set i b') := by
  intro j b hj p hpb
  rw [List.getElem?_set] at hj
  split at hj
  · split at hj
    · simp at hj
      subst hj
      rename_i hij _
      rw [← hij]
      exact hb p hpb
    · simp at hj
  · exact hp j b hj p hpb

/-- A pair with key `k` is in the table exactly when it is in the bucket of `k`. -/
theorem Placed.mem_flatten_iff {utils_hash : Int → Int → Int} {n : Nat} {bs : List Bucket}
    (hp : Placed utils_hash n bs) (k : Int) (v : String) (b : Bucket)
    (h0 : 0 ≤ utils_hash k (n : Int))
    (hb : bs[(utils_hash k (n : Int)).toNat]? = some b) :
    (k, v) ∈ bs.flatten ↔ (k, v) ∈ b := by
  constructor
  · intro h
    obtain ⟨j, b', hj, hm⟩ := (mem_flatten_iff_getElem? bs (k, v)).mp h
    have := hp j b' hj (k, v) hm
    simp only at this
    have hj' : (utils_hash k (n : Int)).toNat = j := by omega
    rw [hj', hj] at hb
    cases hb
    exact hm
  · intro h
    exact (mem_flatten_iff_getElem? bs (k, v)).mpr ⟨_, b, hb, h⟩

theorem nodup_keys_bucket {bs : List Bucket} (hn : (bs.flatten.map Prod.fst).Nodup)
    {i : Nat} {b : Bucket} (hb : bs[i]? = some b) : (b.map Prod.fst).Nodup := by
  obtain ⟨l, r, h1, -⟩ := flatten_set_perm bs i b b hb
  rw [h1] at hn
  simp only [List.map_append] at hn
  exact (List.nodup_append.mp (List.nodup_append.mp hn).1).2.1

theorem Search_total {utils_hash : Int → Int → Int} (hr : HashInRange utils_hash)
    {t : HashTable} (hw : WF utils_hash t) (k : Int) :
    ∃ r, t.Search utils_hash k = some r := by
  obtain ⟨b, hb, -⟩ := bucketAt_hash hr t.buckets_ _ rfl hw.pos k
  refine ⟨(b.find? fun pair => decide (pair.1 = k)).map Prod.snd, ?_⟩
  simp [HashTable.Search, HashTable.hash, hb]

theorem Search_some_iff {utils_hash : Int → Int → Int} (hr : HashInRange utils_hash)
    {t : HashTable} (hw : WF utils_hash t) (k : Int) (v : String) :
    t.Search utils_hash k = some (some v) ↔ (k, v) ∈ pairs t := by
  obtain ⟨b, hb, hb'⟩ := bucketAt_hash hr t.buckets_ _ rfl hw.pos k
  have h0 := (hr k (t.buckets_.length : Int) (by have := hw.pos; omega)).1
  have hiff := hw.placed.mem_flatten_iff k v b h0 hb'
  have hnb := nodup_keys_bucket hw.nodup hb'
  simp only [HashTable.Search, HashTable.hash, hb, Option.map_some', Option.some.injEq, pairs]
  rw [hiff]
  constructor
  · intro h
    cases hf : b.find? (fun pair => decide (pair.1 = k)) with
    | none => simp [hf] at h
    | some p =>
      simp [hf] at h
      obtain ⟨hm, hk⟩ := find?_key_some b k p hf
      have : p = (k, v) := Prod.ext hk h
      rw [← this]; exact hm
  · intro h
    simp [find?_key_of_mem b k v hnb h]

theorem Search_none_iff {utils_hash : Int → Int → Int} (hr : HashInRange utils_hash)
    {t : HashTable} (hw : WF utils_hash t) (k : Int) :
    t.Search utils_hash k = some none ↔ ∀ v, (k, v) ∉ pairs t := by
  obtain ⟨r, hs⟩ := Search_total hr hw k
  constructor
  · intro h v hm
    rw [(Search_some_iff hr hw k v).mpr hm] at h
    simp at h
  · intro h
    cases r with
    | none => exact hs
    | some v => exact absurd ((Search_some_iff hr hw k v).mp hs) (h v)

/-! ## The loops of `Put` -/

theorem putLoop_none_iff (k : Int) (v : String) (b : Bucket) :
    HashTable.putLoop k v b = none ↔ ∀ p ∈ b, p.1 ≠ k := by
  induction b with
  | nil => simp [HashTable.putLoop]
  | cons x xs ih =>
    by_cases hx : x.1 = k
    · simp [HashTable.putLoop, hx]
    · simp [HashTable.putLoop, hx, ih]

theorem putLoop_keys (k : Int) (v : String) (b b' : Bucket)
    (h : HashTable.putLoop k v b = some b') : b'.map Prod.fst = b.map Prod.fst := by
  induction b generalizing b' with
  | nil => simp [HashTable.putLoop] at h
  | cons x xs ih =>
    by_cases hx : x.1 = k
    · simp [HashTable.putLoop, hx] at h
      subst h
      simp [hx]
    · simp [HashTable.putLoop, hx] at h
      obtain ⟨r, hr, rfl⟩ := h
      simp [ih r hr]

theorem putLoop_mem (k : Int) (v : String) (b b' : Bucket)
    (hn : (b.map Prod.fst).Nodup) (h : HashTable.putLoop k v b = some b') (q : Pair) :
    q ∈ b' ↔ q = (k, v) ∨ (q.1 ≠ k ∧ q ∈ b) := by
  induction b generalizing b' with
  | nil => simp [HashTable.putLoop] at h
  | cons x xs ih =>
    simp only [List.map_cons, List.nodup_cons] at hn
    by_cases hx : x.1 = k
    · simp [HashTable.putLoop, hx] at h
      subst h
      have hxs : ∀ p ∈ xs, p.1 ≠ k := by
        intro p hp hpk
        apply hn.1
        rw [hx, ← hpk]
        exact List.mem_map.mpr ⟨p, hp, rfl⟩
      simp only [List.mem_cons]
      constructor
      · rintro (h | h)
        · exact Or.inl h
        · exact Or.inr ⟨hxs q h, Or.inr h⟩
      · rintro (h | ⟨h1, h2 | h2⟩)
        · exact Or.inl h
        · exact absurd (h2 ▸ hx) h1
        · exact Or.inr h2
    · simp [HashTable.putLoop, hx] at h
      obtain ⟨r, hr, rfl⟩ := h
      have := ih r hn.2 hr
      simp only [List.mem_cons, this]
      constructor
      · rintro (h | h | h)
        · exact Or.inr ⟨h ▸ hx, Or.inl h⟩
        · exact Or.inl h
        · exact Or.inr ⟨h.1, Or.inr h.2⟩
      · rintro (h | ⟨h1, h2 | h2⟩)
        · exact Or.inr (Or.inl h)
        · exact Or.inl h2
        · exact Or.inr (Or.inr ⟨h1, h2⟩)

theorem pushBackAt_spec (utils_hash : Int → Int → Int) (n : Nat) (temp : List Bucket)
    (i : Int) (p : Pair) (h0 : 0 ≤ i) (h1 : i < temp.length) :
    ∃ temp', pushBackAt temp i p = some temp' ∧ temp'.length = temp.length ∧
      temp'.flatten.Perm (temp.flatten ++ [p]) ∧
      (Placed utils_hash n temp → utils_hash p.1 (n : Int) = i → Placed utils_hash n temp') := by
  obtain ⟨b, hb, hb'⟩ := bucketAt_of_range temp i h0 h1
  refine ⟨temp.set i.toNat (b ++ [p]), by simp [pushBackAt, hb], by simp, ?_, ?_⟩
  · obtain ⟨l, r, e1, e2⟩ := flatten_set_perm temp i.toNat b (b ++ [p]) hb'
    rw [e1, e2]
    simp only [List.append_assoc]
    exact (List.perm_append_comm.append_left b).append_left l
  · intro hp hh
    apply hp.set
    intro q hq
    rcases List.mem_append.mp hq with hq | hq
    · rw [hp i.toNat b hb' q hq]
    · simp at hq
      subst hq
      rw [hh]; omega

theorem rehashBucket_spec {utils_hash : Int → Int → Int} (hr : HashInRange utils_hash)
    (n : Nat) (hn : 0 < n) (b : Bucket) : ∀ (temp : List Bucket), temp.length = n →
    ∃ temp', HashTable.rehashBucket utils_hash n temp b = some temp' ∧ temp'.length = n ∧
      temp'.flatten.Perm (temp.flatten ++ b) ∧
      (Placed utils_hash n temp → Placed utils_hash n temp') := by
  induction b with
  | nil => intro temp ht; exact ⟨temp, rfl, ht, by simp, id⟩
  | cons x xs ih =>
    intro temp ht
    have hx := hr x.1 (n : Int) (by omega)
    obtain ⟨t1, e1, l1, p1, w1⟩ :=
      pushBackAt_spec utils_hash n temp (utils_hash x.1 (n : Int)) x hx.1 (by omega)
    obtain ⟨t2, e2, l2, p2, w2⟩ := ih t1 (by omega)
    refine ⟨t2, by simp [HashTable.rehashBucket, e1, e2], l2, ?_, fun hp => w2 (w1 hp rfl)⟩
    refine p2.trans ?_
    have := p1.append_right xs
    simpa using this

theorem rehashAll_spec {utils_hash : Int → Int → Int} (hr : HashInRange utils_hash)
    (n : Nat) (hn : 0 < n) (bs : List Bucket) : ∀ (temp : List Bucket), temp.length = n →
    ∃ temp', HashTable.rehashAll utils_hash n temp bs = some temp' ∧ temp'.length = n ∧
      temp'.flatten.Perm (temp.flatten ++ bs.flatten) ∧
      (Placed utils_hash n temp → Placed utils_hash n temp') := by
  induction bs with
  | nil => intro temp ht; exact ⟨temp, rfl, ht, by simp, id⟩
  | cons x xs ih =>
    intro temp ht
    obtain ⟨t1, e1, l1, p1, w1⟩ := rehashBucket_spec hr n hn x temp ht
    obtain ⟨t2, e2, l2, p2, w2⟩ := ih t1 l1
    refine ⟨t2, by simp [HashTable.rehashAll, e1, e2], l2, ?_, fun hp => w2 (w1 hp)⟩
    refine p2.trans ?_
    have := p1.append_right xs.flatten
    simpa using this

theorem Placed.replicate (utils_hash : Int → Int → Int) (n m : Nat) :
    Placed utils_hash n (List.replicate m ([] : Bucket)) := by
  intro i b hi p hp
  have hb : b ∈ List.replicate m ([] : Bucket) := List.mem_iff_getElem?.mpr ⟨i, hi⟩
  rw [List.eq_of_mem_replicate hb] at hp
  simp at hp

theorem flatten_replicate_nil (m : Nat) : (List.replicate m ([] : Bucket)).flatten = [] := by
  induction m with
  | zero => rfl
  | succ m ih => simp [List.replicate_succ, ih]

/-! ## `Put` on a table that satisfies the invariant -/

theorem eq_of_key_eq {l : List Pair} (hn : (l.map Prod.fst).Nodup) {p q : Pair}
    (hp : p ∈ l) (hq : q ∈ l) (h : p.1 = q.1) : p = q :=
  List.inj_on_of_nodup_map hn hp hq h

theorem key_ne_of_sides {l b r : List Pair} (hn : ((l ++ b ++ r).map Prod.fst).Nodup)
    {p q : Pair} (hp : p ∈ b) (hq : q ∈ l ∨ q ∈ r) : q.1 ≠ p.1 := by
  intro h
  simp only [List.map_append, List.append_assoc] at hn
  have h1 := List.nodup_append.mp hn
  have h2 := List.nodup_append.mp h1.2.1
  have hpk : p.1 ∈ b.map Prod.fst := List.mem_map.mpr ⟨p, hp, rfl⟩
  rcases hq with hq | hq
  · have hqk : q.1 ∈ l.map Prod.fst := List.mem_map.mpr ⟨q, hq, rfl⟩
    exact h1.2.2 hqk (List.mem_append.mpr (Or.inl (h ▸ hpk)))
  · have hqk : q.1 ∈ r.map Prod.fst := List.mem_map.mpr ⟨q, hq, rfl⟩
    exact h2.2.2 hpk (h ▸ hqk)

theorem Put_overwrite {utils_hash : Int → Int → Int} (hr : HashInRange utils_hash)
    (kGrowthCoefficient : Nat) {t : HashTable} (hw : WF utils_hash t)
    (k : Int) (v v0 : String) (hm : (k, v0) ∈ pairs t) :
    ∃ t', t.Put utils_hash kGrowthCoefficient k v = some t' ∧
      t'.num_keys_ = t.num_keys_ ∧ t'.buckets_.length = t.buckets_.length ∧
      t'.load_factor_ = t.load_factor_ ∧ WF utils_hash t' ∧
      ∀ q, q ∈ pairs t' ↔ q = (k, v) ∨ (q.1 ≠ k ∧ q ∈ pairs t) := by
  obtain ⟨b, hb, hb'⟩ := bucketAt_hash hr t.buckets_ _ rfl hw.pos k
  have h0 := (hr k (t.buckets_.length : Int) (by have := hw.pos; omega)).1
  have hmb : (k, v0) ∈ b := (hw.placed.mem_flatten_iff k v0 b h0 hb').mp hm
  have hnb := nodup_keys_bucket hw.nodup hb'
  cases hl : HashTable.putLoop k v b with
  | none => exact absurd rfl ((putLoop_none_iff k v b).mp hl (k, v0) hmb)
  | some b' =>
    have hmem := putLoop_mem k v b b' hnb hl
    obtain ⟨l, r, e1, e2⟩ := flatten_set_perm t.buckets_ _ b b' hb'
    have hn := hw.nodup
    simp only [pairs] at hn hm
    rw [e1] at hn
    refine ⟨{ t with buckets_ := t.buckets_.set (utils_hash k (t.buckets_.length : Int)).toNat b' },
      by simp [HashTable.Put, HashTable.hash, hb, hl], rfl, by simp, rfl, ⟨?_, ?_, ?_⟩, ?_⟩
    · simpa using hw.pos
    · simp only [List.length_set]
      apply hw.placed.set
      intro q hq
      rcases (hmem q).mp hq with h | h
      · subst h; simp only; omega
      · rw [hw.placed _ b hb' q h.2]
    · simp only [pairs]
      rw [e2]
      simp only [List.map_append, putLoop_keys k v b b' hl]
      simpa using hn
    · intro q
      simp only [pairs]
      rw [e1, e2]
      simp only [List.mem_append, hmem]
      constructor
      · rintro ((h | h) | h)
        · exact Or.inr ⟨key_ne_of_sides hn hmb (Or.inl h), Or.inl (Or.inl h)⟩
        · rcases h with h | h
          · exact Or.inl h
          · exact Or.inr ⟨h.1, Or.inl (Or.inr h.2)⟩
        · exact Or.inr ⟨key_ne_of_sides hn hmb (Or.inr h), Or.inr h⟩
      · rintro (h | ⟨h1, (h | h) | h⟩)
        · exact Or.inl (Or.inr (Or.inl h))
        · exact Or.inl (Or.inl h)
        · exact Or.inl (Or.inr (Or.inr ⟨h1, h⟩))
        · exact Or.inr h

/-- The table `Put` returns for a key that is not stored: the pair is appended to its
bucket, and the buckets are re-hashed once when the load factor is reached. -/
theorem Put_fresh {utils_hash : Int → Int → Int} (hr : HashInRange utils_hash)
    {kGrowthCoefficient : Nat} (hk : 0 < kGrowthCoefficient) {t : HashTable}
    (hw : WF utils_hash t) (k : Int) (v : String) (hm : ∀ v0, (k, v0) ∉ pairs t) :
    ∃ t', t.Put utils_hash kGrowthCoefficient k v = some t' ∧
      t'.num_keys_ = t.num_keys_ + 1 ∧
      t'.buckets_.length =
        (if Double.ge (Double.quotient (t.num_keys_ + 1) t.buckets_.length) t.load_factor_ = true
          then t.buckets_.length * kGrowthCoefficient else t.buckets_.length) ∧
      t'.load_factor_ = t.load_factor_ ∧ WF utils_hash t' ∧
      (pairs t').Perm (pairs t ++ [(k, v)]) := by
  obtain ⟨b, hb, hb'⟩ := bucketAt_hash hr t.buckets_ _ rfl hw.pos k
  have h0 := (hr k (t.buckets_.length : Int) (by have := hw.pos; omega)).1
  have hl : HashTable.putLoop k v b = none := by
    rw [putLoop_none_iff]
    intro p hp hpk
    apply hm p.2
    show (k, p.2) ∈ t.buckets_.flatten
    rw [hw.placed.mem_flatten_iff k p.2 b h0 hb', ← hpk]
    exact hp
  obtain ⟨l, r, e1, e2⟩ := flatten_set_perm t.buckets_ _ b (b ++ [(k, v)]) hb'
  have hperm : (t.buckets_.set (utils_hash k (t.buckets_.length : Int)).toNat
      (b ++ [(k, v)])).flatten.Perm (pairs t ++ [(k, v)]) := by
    simp only [pairs]
    rw [e1, e2]
    simp only [List.append_assoc]
    exact (List.perm_append_comm.append_left b).append_left l
  have hplaced : Placed utils_hash t.buckets_.length
      (t.buckets_.set (utils_hash k (t.buckets_.length : Int)).toNat (b ++ [(k, v)])) := by
    apply hw.placed.set
    intro q hq
    rcases List.mem_append.mp hq with hq | hq
    · rw [hw.placed _ b hb' q hq]
    · simp at hq
      subst hq; simp only; omega
  have hnodup : ((pairs t ++ [(k, v)]).map Prod.fst).Nodup := by
    simp only [List.map_append, List.map_cons, List.map_nil]
    apply List.Nodup.append hw.nodup (List.nodup_singleton k)
    intro a ha hak
    simp at hak
    subst hak
    obtain ⟨p, hp, hpk⟩ := List.mem_map.mp ha
    apply hm p.2
    rw [← hpk]
    exact hp
  by_cases hc : Double.ge (Double.quotient (t.num_keys_ + 1) t.buckets_.length)
      t.load_factor_ = true
  · have hpos : 0 < t.buckets_.length * kGrowthCoefficient := Nat.mul_pos hw.pos hk
    obtain ⟨temp, et, lt, pt, wt⟩ := rehashAll_spec hr _ hpos
      (t.buckets_.set (utils_hash k (t.buckets_.length : Int)).toNat (b ++ [(k, v)]))
      (List.replicate (t.buckets_.length * kGrowthCoefficient) []) (by simp)
    rw [flatten_replicate_nil, List.nil_append] at pt
    refine ⟨{ buckets_ := temp, num_keys_ := t.num_keys_ + 1, load_factor_ := t.load_factor_ },
      ?_, rfl, ?_, rfl, ⟨?_, ?_, ?_⟩, pt.trans hperm⟩
    · simp only [HashTable.Put, HashTable.hash, hb, hl, List.length_set]
      rw [if_pos hc]
      simp [et]
    · rw [if_pos hc]; exact lt
    · simpa [lt] using hpos
    · simp only [lt]
      exact wt (Placed.replicate utils_hash _ _)
    · exact ((pt.trans hperm).map Prod.fst).nodup_iff.mpr hnodup
  · refine ⟨HashTable.mk
        (t.buckets_.set (utils_hash k (t.buckets_.length : Int)).toNat (b ++ [(k, v)]))
        (t.num_keys_ + 1) t.load_factor_, ?_, rfl, ?_, rfl, ⟨?_, ?_, ?_⟩, hperm⟩
    · simp only [HashTable.Put, HashTable.hash, hb, hl, List.length_set]
      rw [if_neg hc]
    · rw [if_neg hc]; simp
    · simpa using hw.pos
    · simpa using hplaced
    · exact (hperm.map Prod.fst).nodup_iff.mpr hnodup

theorem stored_or_fresh {utils_hash : Int → Int → Int} (hr : HashInRange utils_hash)
    {t : HashTable} (hw : WF utils_hash t) (k : Int) :
    (∃ v0, (k, v0) ∈ pairs t) ∨ ∀ v0, (k, v0) ∉ pairs t := by
  obtain ⟨r, hs⟩ := Search_total hr hw k
  cases r with
  | none => exact Or.inr ((Search_none_iff hr hw k).mp hs)
  | some v0 => exact Or.inl ⟨v0, (Search_some_iff hr hw k v0).mp hs⟩

/-- `Put` returns on every table that satisfies the invariant, keeps the invariant, and
stores exactly the old pairs with other keys and the pair `(k, v)`. -/
theorem Put_spec {utils_hash : Int → Int → Int} (hr : HashInRange utils_hash)
    {kGrowthCoefficient : Nat} (hk : 0 < kGrowthCoefficient) {t : HashTable}
    (hw : WF utils_hash t) (k : Int) (v : String) :
    ∃ t', t.Put utils_hash kGrowthCoefficient k v = some t' ∧
      t'.load_factor_ = t.load_factor_ ∧ WF utils_hash t' ∧
      ∀ q, q ∈ pairs t' ↔ q = (k, v) ∨ (q.1 ≠ k ∧ q ∈ pairs t) := by
  rcases stored_or_fresh hr hw k with ⟨v0, h⟩ | h
  · obtain ⟨t', e, -, -, hl, hw', hq⟩ := Put_overwrite hr kGrowthCoefficient hw k v v0 h
    exact ⟨t', e, hl, hw', hq⟩
  · obtain ⟨t', e, -, -, hl, hw', hp⟩ := Put_fresh hr hk hw k v h
    refine ⟨t', e, hl, hw', ?_⟩
    intro q
    rw [hp.mem_iff]
    simp only [List.mem_append, List.mem_singleton]
    constructor
    · rintro (hq | hq)
      · refine Or.inr ⟨?_, hq⟩
        intro hqk
        apply h q.2
        rw [← hqk]
        exact hq
      · exact Or.inl hq
    · rintro (hq | hq)
      · exact Or.inr hq
      · exact Or.inl hq.2

/-! ## `Remove` -/

theorem Remove_absent (utils_hash : Int → Int → Int) (t : HashTable) (k : Int)
    (h : t.Search utils_hash k = some none) : t.Remove utils_hash k = some (none, t) := by
  simp only [HashTable.Search, Option.map_eq_some'] at h
  obtain ⟨b, hb, hf⟩ := h
  simp only [Option.map_eq_none'] at hf
  simp [HashTable.Remove, hb, hf]

/-- `Remove` never writes `num_keys_`, the load factor or the number of buckets. -/
theorem Remove_frame (utils_hash : Int → Int → Int) (t t' : HashTable) (k : Int)
    (r : Option String) (h : t.Remove utils_hash k = some (r, t')) :
    t'.num_keys_ = t.num_keys_ ∧ t'.load_factor_ = t.load_factor_ ∧
      t'.buckets_.length = t.buckets_.length := by
  unfold HashTable.Remove at h
  simp only at h
  split at h
  · simp at h
  · split at h
    · simp only [Option.some.injEq, Prod.mk.injEq] at h
      rw [← h.2]
      exact ⟨rfl, rfl, rfl⟩
    · simp only [Option.some.injEq, Prod.mk.injEq] at h
      rw [← h.2]
      exact ⟨rfl, rfl, by simp⟩

theorem Remove_present {utils_hash : Int → Int → Int} (hr : HashInRange utils_hash)
    {t : HashTable} (hw : WF utils_hash t) (k : Int) (v : String) (hm : (k, v) ∈ pairs t) :
    ∃ t', t.Remove utils_hash k = some (some v, t') ∧ WF utils_hash t' ∧
      ∀ q, q ∈ pairs t' ↔ q.1 ≠ k ∧ q ∈ pairs t := by
  obtain ⟨b, hb, hb'⟩ := bucketAt_hash hr t.buckets_ _ rfl hw.pos k
  have h0 := (hr k (t.buckets_.length : Int) (by have := hw.pos; omega)).1
  have hmb : (k, v) ∈ b := (hw.placed.mem_flatten_iff k v b h0 hb').mp hm
  have hnb := nodup_keys_bucket hw.nodup hb'
  have hf := find?_key_of_mem b k v hnb hmb
  obtain ⟨l, r, e1, e2⟩ :=
    flatten_set_perm t.buckets_ _ b (b.filter fun q => decide (q ≠ (k, v))) hb'
  have hn := hw.nodup
  simp only [pairs] at hn hm
  rw [e1] at hn
  refine ⟨HashTable.mk (t.buckets_.set (utils_hash k (t.buckets_.length : Int)).toNat
      (b.filter fun q => decide (q ≠ (k, v)))) t.num_keys_ t.load_factor_,
    by simp [HashTable.Remove, HashTable.hash, hb, hf], ⟨?_, ?_, ?_⟩, ?_⟩
  · simpa using hw.pos
  · simp only [List.length_set]
    apply hw.placed.set
    intro q hq
    rw [hw.placed _ b hb' q (List.mem_filter.mp hq).1]
  · simp only [pairs]
    rw [e2]
    have hsub : (l ++ b.filter (fun q => decide (q ≠ (k, v))) ++ r).Sublist (l ++ b ++ r) :=
      ((List.Sublist.refl l).append (List.filter_sublist b)).append (List.Sublist.refl r)
    exact hn.sublist (hsub.map Prod.fst)
  · intro q
    simp only [pairs]
    rw [e1, e2]
    simp only [List.mem_append, List.mem_filter, decide_eq_true_eq]
    constructor
    · rintro ((h | h) | h)
      · exact ⟨key_ne_of_sides hn hmb (Or.inl h), Or.inl (Or.inl h)⟩
      · refine ⟨?_, Or.inl (Or.inr h.1)⟩
        intro hqk
        exact h.2 (eq_of_key_eq hnb h.1 hmb hqk)
      · exact ⟨key_ne_of_sides hn hmb (Or.inr h), Or.inr h⟩
    · rintro ⟨h1, (h | h) | h⟩
      · exact Or.inl (Or.inl h)
      · refine Or.inl (Or.inr ⟨h, ?_⟩)
        intro hq
        exact h1 (by rw [hq])
      · exact Or.inr h

/-- The table `Remove` returns for a stored key: the bucket of the key loses exactly the
pair with that key, and nothing else is written. -/
theorem Remove_present_eq {utils_hash : Int → Int → Int} (hr : HashInRange utils_hash)
    {t : HashTable} (hw : WF utils_hash t) (k : Int) (v : String) (hm : (k, v) ∈ pairs t) :
    ∃ (b l r : Bucket),
      t.buckets_[(utils_hash k (t.buckets_.length : Int)).toNat]? = some b ∧
      b = l ++ (k, v) :: r ∧ (∀ q ∈ l ++ r, q.1 ≠ k) ∧
      t.Remove utils_hash k = some (some v,
        HashTable.mk (t.buckets_.set (utils_hash k (t.buckets_.length : Int)).toNat (l ++ r))
          t.num_keys_ t.load_factor_) := by
  obtain ⟨b, hb, hb'⟩ := bucketAt_hash hr t.buckets_ _ rfl hw.pos k
  have h0 := (hr k (t.buckets_.length : Int) (by have := hw.pos; omega)).1
  have hmb : (k, v) ∈ b := (hw.placed.mem_flatten_iff k v b h0 hb').mp hm
  have hnb := nodup_keys_bucket hw.nodup hb'
  have hf := find?_key_of_mem b k v hnb hmb
  obtain ⟨l, r, hlr⟩ := List.append_of_mem hmb
  have hne : ∀ q ∈ l ++ r, q.1 ≠ k := by
    intro q hq
    rcases List.mem_append.mp hq with hq | hq
    · have : ((l ++ [(k, v)] ++ r).map Prod.fst).Nodup := by simpa [hlr] using hnb
      exact key_ne_of_sides this (List.mem_singleton.mpr rfl) (Or.inl hq)
    · have : ((l ++ [(k, v)] ++ r).map Prod.fst).Nodup := by simpa [hlr] using hnb
      exact key_ne_of_sides this (List.mem_singleton.mpr rfl) (Or.inr hq)
  have hfilter : b.filter (fun q => decide (q ≠ (k, v))) = l ++ r := by
    have hl : l.filter (fun q => decide (q ≠ (k, v))) = l := by
      rw [List.filter_eq_self]
      intro q hq
      have := hne q (List.mem_append.mpr (Or.inl hq))
      simp only [ne_eq, decide_eq_true_eq]
      intro hqe
      exact this (by rw [hqe])
    have hr' : r.filter (fun q => decide (q ≠ (k, v))) = r := by
      rw [List.filter_eq_self]
      intro q hq
      have := hne q (List.mem_append.mpr (Or.inr hq))
      simp only [ne_eq, decide_eq_true_eq]
      intro hqe
      exact this (by rw [hqe])
    rw [hlr, List.filter_append, List.filter_cons, hl, hr']
    simp
  refine ⟨b, l, r, hb', hlr, hne, ?_⟩
  simp only [HashTable.Remove, HashTable.hash, hb, hf]
  rw [hfilter]

/-- Removal by key equality from a bucket that holds key `k` once. -/
theorem filter_key_ne (l r : Bucket) (k : Int) (v : String) (hne : ∀ q ∈ l ++ r, q.1 ≠ k) :
    (l ++ (k, v) :: r).filter (fun q => decide (q.1 ≠ k)) = l ++ r := by
  have hl : l.filter (fun q => decide (q.1 ≠ k)) = l := by
    rw [List.filter_eq_self]
    intro q hq
    simpa using hne q (List.mem_append.mpr (Or.inl hq))
  have hr' : r.filter (fun q => decide (q.1 ≠ k)) = r := by
    rw [List.filter_eq_self]
    intro q hq
    simpa using hne q (List.mem_append.mpr (Or.inr hq))
  rw [List.filter_append, List.filter_cons, hl, hr']
  simp

/-! ## Reachable tables satisfy the invariant -/

/-- The load factors that pass the guard of the constructor: NaN and the finite values
in `(0, 1]`. -/
theorem guard_false_iff (load_factor : Double) :
    (Double.le load_factor (Double.fin 0) = false ∧
      Double.gt load_factor (Double.fin 1) = false) ↔
    (load_factor = Double.nan ∨ ∃ y, load_factor = Double.fin y ∧ 0 < y ∧ y ≤ 1) := by
  cases load_factor with
  | nan => simp [Double.le, Double.gt, Double.lt]
  | inf negative => cases negative <;> simp [Double.le, Double.gt, Double.lt]
  | fin y => simp [Double.le, Double.gt, Double.lt]

theorem new_ok_iff (capacity : Int) (load_factor : Double) (t : HashTable) :
    HashTable.new capacity load_factor = Except.ok t ↔
      0 < capacity ∧ Double.le load_factor (Double.fin 0) = false ∧
      Double.gt load_factor (Double.fin 1) = false ∧
      t = ⟨List.replicate capacity.toNat [], 0, load_factor⟩ := by
  unfold HashTable.new
  by_cases hc : capacity ≤ 0
  · rw [if_pos hc]
    constructor
    · intro h; cases h
    · intro h; omega
  · rw [if_neg hc]
    cases h1 : Double.le load_factor (Double.fin 0) <;>
      cases h2 : Double.gt load_factor (Double.fin 1)
    · simp only [Bool.or_self, Bool.false_eq_true, if_false, Except.ok.injEq, true_and]
      constructor
      · intro h; exact ⟨by omega, h.symm⟩
      · intro h; exact h.2.symm
    all_goals
      simp only [Bool.or_true, Bool.true_or, if_true]
      constructor
      · intro h; cases h
      · intro h; simp at h

theorem WF.new {utils_hash : Int → Int → Int} {capacity : Int} {load_factor : Double}
    {t : HashTable} (h : HashTable.new capacity load_factor = Except.ok t) :
    WF utils_hash t := by
  obtain ⟨hc, -, -, rfl⟩ := (new_ok_iff capacity load_factor t).mp h
  refine ⟨?_, ?_, ?_⟩
  · simp only [List.length_replicate]; omega
  · exact Placed.replicate utils_hash _ _
  · simp [pairs, flatten_replicate_nil]

theorem Reachable.wf {utils_hash : Int → Int → Int} (hr : HashInRange utils_hash)
    {kGrowthCoefficient : Nat} (hk : 0 < kGrowthCoefficient) {t : HashTable}
    (h : Reachable utils_hash kGrowthCoefficient t) : WF utils_hash t := by
  induction h with
  | init capacity load_factor t h => exact WF.new h
  | put t t' key value _ hput ih =>
    obtain ⟨t'', e, -, hw, -⟩ := Put_spec hr hk ih key value
    rw [e] at hput
    cases hput
    exact hw
  | remove t t' key r _ hrem ih =>
    rcases stored_or_fresh hr ih key with ⟨v0, h⟩ | h
    · obtain ⟨t'', e, hw, -⟩ := Remove_present hr ih key v0 h
      rw [e] at hrem
      cases hrem
      exact hw
    · rw [Remove_absent utils_hash t key ((Search_none_iff hr ih key).mpr h)] at hrem
      cases hrem
      exact ih

/-! ## Frame of `Put` and `Remove` -/

theorem Put_frame {utils_hash : Int → Int → Int} (hr : HashInRange utils_hash)
    {kGrowthCoefficient : Nat} (hk : 0 < kGrowthCoefficient) {t t' : HashTable}
    (hw : WF utils_hash t) (k : Int) (v : String)
    (h : t.Put utils_hash kGrowthCoefficient k v = some t') :
    t.buckets_.length ≤ t'.buckets_.length ∧ t'.load_factor_ = t.load_factor_ := by
  rcases stored_or_fresh hr hw k with ⟨v0, hm⟩ | hm
  · obtain ⟨t'', e, -, hlen, hlf, -, -⟩ := Put_overwrite hr kGrowthCoefficient hw k v v0 hm
    rw [e] at h
    cases h
    exact ⟨by omega, hlf⟩
  · obtain ⟨t'', e, -, hlen, hlf, -, -⟩ := Put_fresh hr hk hw k v hm
    rw [e] at h
    cases h
    refine ⟨?_, hlf⟩
    rw [hlen]
    split
    · exact Nat.le_mul_of_pos_right _ hk
    · exact Nat.le_refl _

theorem Remove_total {utils_hash : Int → Int → Int} (hr : HashInRange utils_hash)
    {t : HashTable} (hw : WF utils_hash t) (k : Int) :
    ∃ r t', t.Remove utils_hash k = some (r, t') := by
  rcases stored_or_fresh hr hw k with ⟨v0, hm⟩ | hm
  · obtain ⟨t', e, -, -⟩ := Remove_present hr hw k v0 hm
    exact ⟨some v0, t', e⟩
  · exact ⟨none, t, Remove_absent utils_hash t k ((Search_none_iff hr hw k).mpr hm)⟩

theorem ReachableFrom.toReachable {utils_hash : Int → Int → Int} {kGrowthCoefficient : Nat}
    {capacity : Int} {load_factor : Double} {t0 t : HashTable}
    (h0 : HashTable.new capacity load_factor = Except.ok t0)
    (h : ReachableFrom utils_hash kGrowthCoefficient t0 t) :
    Reachable utils_hash kGrowthCoefficient t := by
  induction h with
  | refl => exact Reachable.init capacity load_factor t0 h0
  | put t t' key value _ hput ih => exact Reachable.put t t' key value ih hput
  | remove t t' key r _ hrem ih => exact Reachable.remove t t' key r ih hrem

theorem ReachableFrom.frame {utils_hash : Int → Int → Int} (hr : HashInRange utils_hash)
    {kGrowthCoefficient : Nat} (hk : 0 < kGrowthCoefficient)
    {capacity : Int} {load_factor : Double} {t0 t : HashTable}
    (h0 : HashTable.new capacity load_factor = Except.ok t0)
    (h : ReachableFrom utils_hash kGrowthCoefficient t0 t) :
    t0.buckets_.length ≤ t.buckets_.length ∧ t.load_factor_ = t0.load_factor_ := by
  induction h with
  | refl => exact ⟨Nat.le_refl _, rfl⟩
  | put t t' key value hreach hput ih =>
    have hw := (hreach.toReachable h0).wf hr hk
    obtain ⟨h1, h2⟩ := Put_frame hr hk hw key value hput
    exact ⟨by omega, by rw [h2, ih.2]⟩
  | remove t t' key r _ hrem ih =>
    obtain ⟨-, h2, h3⟩ := Remove_frame utils_hash t t' key r hrem
    exact ⟨by omega, by rw [h2, ih.2]⟩

/-! ## The load after `Put` -/

theorem PutReachableFrom.reachable_of_new {utils_hash : Int → Int → Int}
    {kGrowthCoefficient : Nat} {capacity : Int} {load_factor : Double} {t0 t : HashTable}
    (h0 : HashTable.new capacity load_factor = Except.ok t0)
    (h : PutReachableFrom utils_hash kGrowthCoefficient t0 t) :
    Reachable utils_hash kGrowthCoefficient t := by
  induction h with
  | refl => exact Reachable.init capacity load_factor t0 h0
  | put t t' key value _ hput ih => exact Reachable.put t t' key value ih hput

theorem quotient_of_pos (n : Int) (d : Nat) (hd : 0 < d) :
    Double.quotient n d = Double.fin (Double.roundBinary64 ((n : ℚ) / (d : ℚ))) := by
  simp [Double.quotient, Nat.pos_iff_ne_zero.mp hd]

/-- With at least one key stored, the load after the insertion and one growth step by a
coefficient of at least two is at most the load before the insertion. -/
theorem grown_load_le (n : Int) (c g : Nat) (hn : 1 ≤ n) (hc : 0 < c) (hg : 2 ≤ g) :
    Double.roundBinary64 (((n + 1 : Int) : ℚ) / ((c * g : Nat) : ℚ)) ≤
      Double.roundBinary64 ((n : ℚ) / (c : ℚ)) := by
  have hc' : (0 : ℚ) < (c : ℚ) := by exact_mod_cast hc
  have hg' : (2 : ℚ) ≤ (g : ℚ) := by exact_mod_cast hg
  have hn' : (1 : ℚ) ≤ (n : ℚ) := by exact_mod_cast hn
  have hcg : (0 : ℚ) < ((c * g : Nat) : ℚ) := by
    push_cast
    exact mul_pos hc' (by linarith)
  apply Double.roundBinary64_mono
  · apply div_pos _ hcg
    push_cast
    linarith
  · rw [div_le_div_iff₀ hcg hc']
    push_cast
    have h1 : (n : ℚ) * (c : ℚ) * 2 ≤ (n : ℚ) * (c : ℚ) * (g : ℚ) :=
      mul_le_mul_of_nonneg_left hg' (mul_nonneg (by linarith) hc'.le)
    have h2 : (1 : ℚ) * (c : ℚ) ≤ (n : ℚ) * (c : ℚ) := mul_le_mul_of_nonneg_right hn' hc'.le
    nlinarith [h1, h2]

/-- The load with one key falls when the table grows. -/
theorem one_key_load_le (c g : Nat) (hc : 0 < c) (hg : 1 ≤ g) :
    Double.roundBinary64 (((1 : Int) : ℚ) / ((c * g : Nat) : ℚ)) ≤
      Double.roundBinary64 (((1 : Int) : ℚ) / (c : ℚ)) := by
  have hc' : (0 : ℚ) < (c : ℚ) := by exact_mod_cast hc
  have hg' : (1 : ℚ) ≤ (g : ℚ) := by exact_mod_cast hg
  have hcg : (0 : ℚ) < ((c * g : Nat) : ℚ) := by
    push_cast
    exact mul_pos hc' (by linarith)
  apply Double.roundBinary64_mono
  · apply div_pos _ hcg
    norm_num
  · rw [div_le_div_iff₀ hcg hc']
    push_cast
    nlinarith

/-- On tables built by `Put` alone from a construction whose load factor is above the
load of one key in the once-grown table, with a growth coefficient of at least two, the
load stays below the load factor. -/
theorem PutReachableFrom.load_lt {utils_hash : Int → Int → Int} (hr : HashInRange utils_hash)
    {kGrowthCoefficient : Nat} (hk : 2 ≤ kGrowthCoefficient)
    {capacity : Int} {load_factor : Double} {t0 t : HashTable}
    (h0 : HashTable.new capacity load_factor = Except.ok t0)
    (hcond : Double.lt (Double.quotient 1 (capacity.toNat * kGrowthCoefficient))
      load_factor = true)
    (h : PutReachableFrom utils_hash kGrowthCoefficient t0 t) :
    t.load_factor_ = load_factor ∧ 0 ≤ t.num_keys_ ∧
      (t.num_keys_ = 0 → t.buckets_.length = capacity.toNat) ∧
      Double.lt (Double.quotient t.num_keys_ t.buckets_.length) load_factor = true := by
  have hk0 : 0 < kGrowthCoefficient := by omega
  obtain ⟨hc, g1, g2, ht0⟩ := (new_ok_iff capacity load_factor t0).mp h0
  have hc0 : 0 < capacity.toNat := by omega
  obtain ⟨y, rfl, hy0, hy1⟩ : ∃ y, load_factor = Double.fin y ∧ 0 < y ∧ y ≤ 1 := by
    rcases (guard_false_iff load_factor).mp ⟨g1, g2⟩ with hn | hy
    · rw [hn] at hcond
      rw [quotient_of_pos _ _ (Nat.mul_pos hc0 hk0)] at hcond
      simp [Double.lt] at hcond
    · exact hy
  induction h with
  | refl =>
    rw [ht0]
    refine ⟨rfl, le_refl _, fun _ => by simp, ?_⟩
    simp only [List.length_replicate]
    rw [quotient_of_pos _ _ hc0]
    simp [Double.lt, Double.roundBinary64, hy0]
  | put t t' key value hreach hput ih =>
    have hw := (hreach.reachable_of_new h0).wf hr hk0
    obtain ⟨ihl, ihn, ihc, ihq⟩ := ih
    rcases stored_or_fresh hr hw key with ⟨v0, hm⟩ | hm
    · obtain ⟨t'', e, hn, hlen, hlf, -, -⟩ :=
        Put_overwrite hr kGrowthCoefficient hw key value v0 hm
      rw [e] at hput
      cases hput
      rw [hn, hlen, hlf]
      exact ⟨ihl, ihn, ihc, ihq⟩
    · obtain ⟨t'', e, hn, hlen, hlf, -, -⟩ := Put_fresh hr hk0 hw key value hm
      rw [e] at hput
      cases hput
      rw [hn, hlf]
      refine ⟨ihl, by omega, fun h => by omega, ?_⟩
      rw [hlen, ihl]
      rw [quotient_of_pos _ _ hw.pos, Double.lt, decide_eq_true_eq] at ihq
      split
      · rw [quotient_of_pos _ _ (Nat.mul_pos hw.pos hk0), Double.lt, decide_eq_true_eq]
        rcases ihn.eq_or_lt with hz | hpos
        · rw [← hz, ihc hz.symm]
          rw [quotient_of_pos _ _ (Nat.mul_pos hc0 hk0), Double.lt, decide_eq_true_eq] at hcond
          simpa using hcond
        · exact lt_of_le_of_lt
            (grown_load_le t.num_keys_ t.buckets_.length kGrowthCoefficient (by omega) hw.pos hk)
            ihq
      · rename_i hnt
        rw [quotient_of_pos _ _ hw.pos] at hnt ⊢
        simp only [Double.ge, Double.le, decide_eq_true_eq, not_le] at hnt
        simpa [Double.lt] using hnt

/-- From a construction whose load factor is not above the load of one key in the
once-grown table, the first `Put` leaves a load that is not below the load factor. -/
theorem first_put_load_not_lt {utils_hash : Int → Int → Int} (hr : HashInRange utils_hash)
    {kGrowthCoefficient : Nat} (hk : 2 ≤ kGrowthCoefficient)
    {capacity : Int} {load_factor : Double} {t0 : HashTable}
    (h0 : HashTable.new capacity load_factor = Except.ok t0)
    (hcond : Double.lt (Double.quotient 1 (capacity.toNat * kGrowthCoefficient))
      load_factor = false) (k : Int) (v : String) :
    ∃ t', t0.Put utils_hash kGrowthCoefficient k v = some t' ∧
      Double.lt t'.load t'.load_factor = false := by
  have hk0 : 0 < kGrowthCoefficient := by omega
  obtain ⟨hc, g1, g2, ht0⟩ := (new_ok_iff capacity load_factor t0).mp h0
  have hc0 : 0 < capacity.toNat := by omega
  have hw : WF utils_hash t0 := WF.new h0
  have hm : ∀ v0, (k, v0) ∉ pairs t0 := by
    intro v0
    rw [ht0]
    simp [pairs, flatten_replicate_nil]
  obtain ⟨t', e, hn, hlen, hlf, -, -⟩ := Put_fresh hr hk0 hw k v hm
  refine ⟨t', e, ?_⟩
  have hn0 : t0.num_keys_ = 0 := by rw [ht0]
  have hl0 : t0.buckets_.length = capacity.toNat := by rw [ht0]; simp
  have hf0 : t0.load_factor_ = load_factor := by rw [ht0]
  simp only [HashTable.load, HashTable.load_factor, hn, hlen, hlf, hn0, hl0, hf0]
  split
  · simpa using hcond
  · rename_i hnt
    by_contra hlt
    rw [Bool.not_eq_false] at hlt
    rw [quotient_of_pos _ _ hc0] at hnt hlt
    rw [quotient_of_pos _ _ (Nat.mul_pos hc0 hk0)] at hcond
    rcases (guard_false_iff load_factor).mp ⟨g1, g2⟩ with hnan | ⟨y, rfl, -, -⟩
    · rw [hnan] at hlt
      simp [Double.lt] at hlt
    · simp only [Double.lt, decide_eq_true_eq, decide_eq_false_iff_not, not_lt] at hlt hcond
      have := one_key_load_le capacity.toNat kGrowthCoefficient hc0 (by omega)
      simp only [zero_add] at hlt
      linarith

/-! ## `keys` and `values` as enumerations of the pairs -/

theorem keys_inner (b : Bucket) : ∀ (ks : Finset Int),
    b.foldl (fun ks' pair => insert pair.1 ks') ks = ks ∪ (b.map Prod.fst).toFinset := by
  induction b with
  | nil => intro ks; simp
  | cons x xs ih =>
    intro ks
    simp only [List.foldl_cons, ih, List.map_cons, List.toFinset_cons]
    ext a
    simp only [Finset.mem_union, Finset.mem_insert]
    tauto

theorem keys_outer (bs : List Bucket) : ∀ (ks : Finset Int),
    bs.foldl (fun ks bucket => bucket.foldl (fun ks' pair => insert pair.1 ks') ks) ks =
      ks ∪ (bs.flatten.map Prod.fst).toFinset := by
  induction bs with
  | nil => intro ks; simp
  | cons x xs ih =>
    intro ks
    rw [List.foldl_cons, ih, keys_inner]
    simp only [List.flatten_cons, List.map_append, List.toFinset_append, Finset.union_assoc]

theorem keys_eq (t : HashTable) : t.keys = ((pairs t).map Prod.fst).toFinset := by
  simp [HashTable.keys, keys_outer, pairs]

theorem values_inner (b : Bucket) : ∀ (vs : List String),
    b.foldl (fun vs' pair => vs' ++ [pair.2]) vs = vs ++ b.map Prod.snd := by
  induction b with
  | nil => intro vs; simp
  | cons x xs ih => intro vs; simp [ih]

theorem values_outer (bs : List Bucket) : ∀ (vs : List String),
    bs.foldl (fun vs bucket => bucket.foldl (fun vs' pair => vs' ++ [pair.2]) vs) vs =
      vs ++ bs.flatten.map Prod.snd := by
  induction bs with
  | nil => intro vs; simp
  | cons x xs ih =>
    intro vs
    rw [List.foldl_cons, ih, values_inner]
    simp only [List.flatten_cons, List.map_append, List.append_assoc]

theorem values_eq (t : HashTable) : t.values = (pairs t).map Prod.snd := by
  simp [HashTable.values, values_outer, pairs]

/-- Tables with the same pairs for key `k` give the same `Search(k)`. -/
theorem Search_congr {utils_hash : Int → Int → Int} (hr : HashInRange utils_hash)
    {t t' : HashTable} (hw : WF utils_hash t) (hw' : WF utils_hash t') (k : Int)
    (h : ∀ v, (k, v) ∈ pairs t' ↔ (k, v) ∈ pairs t) :
    t'.Search utils_hash k = t.Search utils_hash k := by
  obtain ⟨r, hs⟩ := Search_total hr hw k
  rw [hs]
  cases r with
  | none =>
    rw [Search_none_iff hr hw']
    intro v hv
    exact (Search_none_iff hr hw k).mp hs v ((h v).mp hv)
  | some v =>
    rw [Search_some_iff hr hw']
    exact (h v).mpr ((Search_some_iff hr hw k v).mp hs)

/-! ## Concrete runs -/

theorem modHash_inRange : HashInRange modHash := by
  intro key n hn
  exact ⟨Int.emod_nonneg key (by omega), Int.emod_lt_of_pos key (by omega)⟩

theorem quotient_exact (n : Int) (d : Nat) (hd : 0 < d) (e m : Int)
    (hlo : (2 : ℚ) ^ e ≤ (n : ℚ) / (d : ℚ)) (hhi : (n : ℚ) / (d : ℚ) < (2 : ℚ) ^ (e + 1))
    (hx : (n : ℚ) / (d : ℚ) = (m : ℚ) * (2 : ℚ) ^ (e - 52)) :
    Double.quotient n d = Double.fin ((n : ℚ) / (d : ℚ)) := by
  rw [quotient_of_pos n d hd, Double.roundBinary64_exact e m hlo hhi hx]

theorem quotient_1_1 : Double.quotient 1 1 = Double.fin 1 := by
  rw [quotient_exact 1 1 (by decide) 0 (2 ^ 52) (by norm_num) (by norm_num) (by norm_num)]
  norm_num

theorem quotient_1_2 : Double.quotient 1 2 = Double.fin (1 / 2) := by
  rw [quotient_exact 1 2 (by decide) (-1) (2 ^ 52) (by norm_num) (by norm_num) (by norm_num)]
  norm_num

theorem quotient_1_4 : Double.quotient 1 4 = Double.fin (1 / 4) := by
  rw [quotient_exact 1 4 (by decide) (-2) (2 ^ 52) (by norm_num) (by norm_num) (by norm_num)]
  norm_num

theorem quotient_2_4 : Double.quotient 2 4 = Double.fin (1 / 2) := by
  rw [quotient_exact 2 4 (by decide) (-1) (2 ^ 52) (by norm_num) (by norm_num) (by norm_num)]
  norm_num

theorem quotient_3_4 : Double.quotient 3 4 = Double.fin (3 / 4) := by
  rw [quotient_exact 3 4 (by decide) (-1) (3 * 2 ^ 51) (by norm_num) (by norm_num)
    (by norm_num)]
  norm_num

theorem quotient_1_8 : Double.quotient 1 8 = Double.fin (1 / 8) := by
  rw [quotient_exact 1 8 (by decide) (-3) (2 ^ 52) (by norm_num) (by norm_num) (by norm_num)]
  norm_num

theorem quotient_3_8 : Double.quotient 3 8 = Double.fin (3 / 8) := by
  rw [quotient_exact 3 8 (by decide) (-2) (3 * 2 ^ 51) (by norm_num) (by norm_num)
    (by norm_num)]
  norm_num

/-- The quotient `1.0 / 10` is rounded up to the binary64 value of the literal `0.1`. -/
theorem quotient_1_10 : Double.quotient 1 10 = double_0_1 := by
  rw [quotient_of_pos 1 10 (by decide), double_0_1]
  congr 1
  have h : ((1 : Int) : ℚ) / ((10 : Nat) : ℚ) = 1 / 10 := by norm_num
  rw [h]
  exact Double.roundBinary64_tenth

theorem new_table4 : HashTable.new 4 (Double.fin (3 / 4)) = Except.ok table4 := by
  rw [new_ok_iff]
  refine ⟨by decide, by simp [Double.le], ?_, ?_⟩
  · simp only [Double.gt, Double.lt, decide_eq_false_iff_not, not_lt]
    norm_num
  · simp [table4, List.replicate]

theorem new_table1 : HashTable.new 1 (Double.fin (1 / 2)) = Except.ok table1 := by
  rw [new_ok_iff]
  refine ⟨by decide, by simp [Double.le], ?_, ?_⟩
  · simp only [Double.gt, Double.lt, decide_eq_false_iff_not, not_lt]
    norm_num
  · simp [table1, List.replicate]

theorem new_table10 : HashTable.new 10 double_0_1 = Except.ok table10 := by
  rw [new_ok_iff]
  refine ⟨by decide, by simp [Double.le, double_0_1], ?_, ?_⟩
  · simp only [Double.gt, Double.lt, double_0_1, decide_eq_false_iff_not, not_lt]
    norm_num
  · simp [table10, List.replicate]

theorem new_table4nan : HashTable.new 4 Double.nan = Except.ok table4nan := by
  rw [new_ok_iff]
  refine ⟨by decide, rfl, rfl, ?_⟩
  simp [table4nan, List.replicate]

theorem put_table4 : table4.Put modHash 2 1 "a" = some table4a := by
  simp [HashTable.Put, HashTable.hash, bucketAt, modHash, HashTable.putLoop, table4, table4a,
    quotient_1_4, Double.ge, Double.le]
  norm_num

theorem put_table1 : table1.Put modHash 2 1 "a" = some table1a := by
  simp [HashTable.Put, HashTable.hash, bucketAt, modHash, HashTable.putLoop, table1, table1a,
    HashTable.rehashAll, HashTable.rehashBucket, pushBackAt, quotient_1_1, Double.ge,
    Double.le]
  norm_num

/-- The run `HashTable(10, 0.1); Put(1, "a")`: the rounded quotient `1.0 / 10` reaches the
load factor `0.1` and the table grows to 20 buckets. -/
theorem put_table10 :
    ∃ t', table10.Put modHash 2 1 "a" = some t' ∧ t'.size = 1 ∧ t'.capacity = 20 := by
  have hw : WF modHash table10 := WF.new new_table10
  obtain ⟨t', e, hn, hlen, -, -, -⟩ := Put_fresh modHash_inRange (by decide : 0 < 2) hw 1 "a"
    (by simp [pairs, table10, flatten_replicate_nil])
  have hc : Double.ge (Double.quotient (table10.num_keys_ + 1) table10.buckets_.length)
      table10.load_factor_ = true := by
    have h1 : table10.num_keys_ + 1 = 1 := rfl
    have h2 : table10.buckets_.length = 10 := rfl
    have h3 : table10.load_factor_ = double_0_1 := rfl
    rw [h1, h2, h3, quotient_1_10]
    simp [Double.ge, Double.le, double_0_1]
  rw [if_pos hc] at hlen
  refine ⟨t', e, ?_, ?_⟩
  · rw [HashTable.size, hn]; rfl
  · rw [HashTable.capacity, hlen]; rfl

theorem search_table4a : table4a.Search modHash 1 = some (some "a") := by
  simp [HashTable.Search, HashTable.hash, bucketAt, modHash, table4a]

theorem remove_table4a : table4a.Remove modHash 1 = some (some "a", table4r) := by
  simp [HashTable.Remove, HashTable.hash, bucketAt, modHash, table4a, table4r]

theorem search_table4 : table4.Search modHash 1 = some none := by
  simp [HashTable.Search, HashTable.hash, bucketAt, modHash, table4]

theorem reachable_table4 : Reachable modHash 2 table4 :=
  Reachable.init 4 (Double.fin (3 / 4)) table4 new_table4

theorem reachable_table4a : Reachable modHash 2 table4a :=
  Reachable.put table4 table4a 1 "a" reachable_table4 put_table4

theorem reachable_table4r : Reachable modHash 2 table4r :=
  Reachable.remove table4a table4r 1 (some "a") reachable_table4a remove_table4a

theorem reachable_table1 : Reachable modHash 2 table1 :=
  Reachable.init 1 (Double.fin (1 / 2)) table1 new_table1

theorem reachable_table1a : Reachable modHash 2 table1a :=
  Reachable.put table1 table1a 1 "a" reachable_table1 put_table1

theorem search_table1a : table1a.Search modHash 1 = some (some "a") := by
  simp [HashTable.Search, HashTable.hash, bucketAt, modHash, table1a]

theorem put_table4a : table4a.Put modHash 2 2 "b" = some table4ab := by
  simp [HashTable.Put, HashTable.hash, bucketAt, modHash, HashTable.putLoop, table4a, table4ab,
    quotient_2_4, Double.ge, Double.le]
  norm_num

theorem put_table4ab : table4ab.Put modHash 2 3 "c" = some table8 := by
  simp [HashTable.Put, HashTable.hash, bucketAt, modHash, HashTable.putLoop, table4ab, table8,
    HashTable.rehashAll, HashTable.rehashBucket, pushBackAt, quotient_3_4, Double.ge,
    Double.le]

theorem search_table4ab : table4ab.Search modHash 3 = some none := by
  simp [HashTable.Search, HashTable.hash, bucketAt, modHash, table4ab]

theorem reachable_table4ab : Reachable modHash 2 table4ab :=
  Reachable.put table4a table4ab 2 "b" reachable_table4a put_table4a

theorem reachable_table8 : Reachable modHash 2 table8 :=
  Reachable.put table4ab table8 3 "c" reachable_table4ab put_table4ab

theorem reachableFrom_table8 : ReachableFrom modHash 2 table4 table8 :=
  ReachableFrom.put table4ab table8 3 "c"
    (ReachableFrom.put table4a table4ab 2 "b"
      (ReachableFrom.put table4 table4a 1 "a" ReachableFrom.refl put_table4) put_table4a)
    put_table4ab

/-- The example of the spec for every `utils::hash` with indices in range and the growth
coefficient `2`: `HashTable(4, 0.75)`, `Put(1, "a")`, `Put(2, "b")`, `Put(3, "c")`. -/
theorem spec_example_run {utils_hash : Int → Int → Int} (hr : HashInRange utils_hash) :
    ∃ t1 t2 t3, table4.Put utils_hash 2 1 "a" = some t1 ∧
      t1.Put utils_hash 2 2 "b" = some t2 ∧ t2.Put utils_hash 2 3 "c" = some t3 ∧
      t1.capacity = 4 ∧ t2.capacity = 4 ∧ t3.size = 3 ∧ t3.capacity = 8 ∧
      t3.Search utils_hash 1 = some (some "a") ∧ t3.Search utils_hash 2 = some (some "b") ∧
      t3.Search utils_hash 3 = some (some "c") := by
  have hw0 : WF utils_hash table4 := WF.new new_table4
  obtain ⟨t1, e1, n1, l1, f1, w1, p1⟩ :=
    Put_fresh hr (by decide : 0 < 2) hw0 1 "a" (by simp [pairs, table4])
  have c1 : ¬ (Double.ge (Double.quotient (table4.num_keys_ + 1) table4.buckets_.length)
      table4.load_factor_ = true) := by
    have a1 : table4.num_keys_ + 1 = 1 := rfl
    have a2 : table4.buckets_.length = 4 := rfl
    have a3 : table4.load_factor_ = Double.fin (3 / 4) := rfl
    rw [a1, a2, a3, quotient_1_4]
    simp only [Double.ge, Double.le, decide_eq_true_eq, not_le]
    norm_num
  rw [if_neg c1] at l1
  have n1' : t1.num_keys_ + 1 = 2 := by rw [n1]; rfl
  have l1' : t1.buckets_.length = 4 := by rw [l1]; rfl
  have f1' : t1.load_factor_ = Double.fin (3 / 4) := by rw [f1]; rfl
  have m1 : ∀ q, q ∈ pairs t1 ↔ q = ((1 : Int), "a") := by
    intro q
    rw [p1.mem_iff]
    simp [pairs, table4]
  obtain ⟨t2, e2, n2, l2, f2, w2, p2⟩ :=
    Put_fresh hr (by decide : 0 < 2) w1 2 "b" (by intro v0; rw [m1]; simp)
  have c2 : ¬ (Double.ge (Double.quotient (t1.num_keys_ + 1) t1.buckets_.length)
      t1.load_factor_ = true) := by
    rw [n1', l1', f1', quotient_2_4]
    simp only [Double.ge, Double.le, decide_eq_true_eq, not_le]
    norm_num
  rw [if_neg c2] at l2
  have n2' : t2.num_keys_ + 1 = 3 := by rw [n2, n1']; rfl
  have l2' : t2.buckets_.length = 4 := by rw [l2, l1']
  have f2' : t2.load_factor_ = Double.fin (3 / 4) := by rw [f2, f1']
  have m2 : ∀ q, q ∈ pairs t2 ↔ q = ((1 : Int), "a") ∨ q = ((2 : Int), "b") := by
    intro q
    rw [p2.mem_iff, List.mem_append, m1, List.mem_singleton]
  obtain ⟨t3, e3, n3, l3, f3, w3, p3⟩ :=
    Put_fresh hr (by decide : 0 < 2) w2 3 "c" (by intro v0; rw [m2]; simp)
  have c3 : Double.ge (Double.quotient (t2.num_keys_ + 1) t2.buckets_.length)
      t2.load_factor_ = true := by
    rw [n2', l2', f2', quotient_3_4]
    simp [Double.ge, Double.le]
  rw [if_pos c3] at l3
  have m3 : ∀ q, q ∈ pairs t3 ↔
      (q = ((1 : Int), "a") ∨ q = ((2 : Int), "b")) ∨ q = ((3 : Int), "c") := by
    intro q
    rw [p3.mem_iff, List.mem_append, m2, List.mem_singleton]
  refine ⟨t1, t2, t3, e1, e2, e3, ?_, ?_, ?_, ?_, ?_, ?_, ?_⟩
  · simp [HashTable.capacity, l1']
  · simp [HashTable.capacity, l2']
  · simp [HashTable.size, n3, n2']
  · simp [HashTable.capacity, l3, l2']
  · exact (Search_some_iff hr w3 1 "a").mpr ((m3 _).mpr (Or.inl (Or.inl rfl)))
  · exact (Search_some_iff hr w3 2 "b").mpr ((m3 _).mpr (Or.inl (Or.inr rfl)))
  · exact (Search_some_iff hr w3 3 "c").mpr ((m3 _).mpr (Or.inr rfl))

/-! ## Claims -/

/-- C1. Put/Search round trip: on every table reachable from a valid construction by `Put`
and `Remove` calls, `Put(k, v)` returns and `Search(k)` on the table it leaves returns `v`,
with or without a resize, for every `utils::hash` that yields an index in `[0, n)`. -/
theorem put_search_round_trip {utils_hash : Int → Int → Int} (hr : HashInRange utils_hash)
    {kGrowthCoefficient : Nat} (hk : 0 < kGrowthCoefficient) (t : HashTable)
    (h : Reachable utils_hash kGrowthCoefficient t) (k : Int) (v : String) :
    ∃ t', t.Put utils_hash kGrowthCoefficient k v = some t' ∧
      t'.Search utils_hash k = some (some v) := by
  obtain ⟨t', e, -, hw, hq⟩ := Put_spec hr hk (h.wf hr hk) k v
  exact ⟨t', e, (Search_some_iff hr hw k v).mpr ((hq (k, v)).mpr (Or.inl rfl))⟩

theorem put_search_round_trip_witness :
    HashInRange modHash ∧ Reachable modHash 2 table1 ∧
      ∃ t', table1.Put modHash 2 1 "a" = some t' ∧ t'.capacity = 2 ∧
        t'.Search modHash 1 = some (some "a") := by
  refine ⟨modHash_inRange, reachable_table1, ?_⟩
  obtain ⟨t', e, hs⟩ :=
    put_search_round_trip modHash_inRange (by decide) table1 reachable_table1 1 "a"
  refine ⟨t', e, ?_, hs⟩
  rw [put_table1] at e
  cases e
  rfl

/-- C2 on the code: after `HashTable(4, 0.75)` and `Put(1, "a")`, key `1` is present,
`Remove(1)` returns `"a"`, and `size()` is `1` before and after instead of one less;
`Remove` leaves `size()` unchanged on every table. -/
theorem remove_present_size_not_decremented :
    Reachable modHash 2 table4a ∧ table4a.Search modHash 1 = some (some "a") ∧
      table4a.Remove modHash 1 = some (some "a", table4r) ∧
      table4a.size = 1 ∧ table4r.size = 1 ∧ table4r.size ≠ table4a.size - 1 ∧
      ∀ (utils_hash : Int → Int → Int) (t t' : HashTable) (k : Int) (r : Option String),
        t.Remove utils_hash k = some (r, t') → t'.size = t.size :=
  ⟨reachable_table4a, search_table4a, remove_table4a, rfl, rfl, by decide,
    fun utils_hash t t' k r h => (Remove_frame utils_hash t t' k r h).1⟩

/-- C3. Remove of a present key returns its value and deletes it: on a reachable table with
`Search(k) = v`, `Remove(k)` returns `v` and `Search(k)` on the table it leaves is absent;
in particular `Put(k, v)` followed by `Remove(k)` returns `v`. -/
theorem remove_present_returns_and_deletes {utils_hash : Int → Int → Int}
    (hr : HashInRange utils_hash) {kGrowthCoefficient : Nat} (hk : 0 < kGrowthCoefficient)
    (t : HashTable) (h : Reachable utils_hash kGrowthCoefficient t) :
    (∀ (k : Int) (v : String), t.Search utils_hash k = some (some v) →
      ∃ t', t.Remove utils_hash k = some (some v, t') ∧ t'.Search utils_hash k = some none) ∧
    (∀ (k : Int) (v : String), ∃ t1 t2, t.Put utils_hash kGrowthCoefficient k v = some t1 ∧
      t1.Remove utils_hash k = some (some v, t2) ∧ t2.Search utils_hash k = some none) := by
  have key : ∀ (s : HashTable), WF utils_hash s → ∀ (k : Int) (v : String),
      (k, v) ∈ pairs s →
      ∃ s', s.Remove utils_hash k = some (some v, s') ∧ s'.Search utils_hash k = some none := by
    intro s hs k v hm
    obtain ⟨s', e, hw', hq⟩ := Remove_present hr hs k v hm
    refine ⟨s', e, (Search_none_iff hr hw' k).mpr ?_⟩
    intro v0 hv0
    exact ((hq (k, v0)).mp hv0).1 rfl
  have hw := h.wf hr hk
  constructor
  · intro k v hs
    exact key t hw k v ((Search_some_iff hr hw k v).mp hs)
  · intro k v
    obtain ⟨t1, e, -, hw1, hq⟩ := Put_spec hr hk hw k v
    obtain ⟨t2, e2, hs2⟩ := key t1 hw1 k v ((hq (k, v)).mpr (Or.inl rfl))
    exact ⟨t1, t2, e, e2, hs2⟩

theorem remove_present_returns_and_deletes_witness :
    HashInRange modHash ∧ Reachable modHash 2 table4a ∧
      table4a.Search modHash 1 = some (some "a") ∧
      ∃ t', table4a.Remove modHash 1 = some (some "a", t') ∧
        t'.Search modHash 1 = some none :=
  ⟨modHash_inRange, reachable_table4a, search_table4a,
    (remove_present_returns_and_deletes modHash_inRange (by decide) table4a
      reachable_table4a).1 1 "a" search_table4a⟩

/-- C4, as stated, fails: `HashTable(1, 0.5)` and `Put(1, "a")` leave `size() == 1` and
`capacity() == 2`, a load of `0.5` that is not below the load factor `0.5` (all values are
exact in binary64); the same holds for every `utils::hash` with indices in range. -/
theorem growth_invariant_counterexample :
    HashTable.new 1 (Double.fin (1 / 2)) = Except.ok table1 ∧
      table1.Put modHash 2 1 "a" = some table1a ∧
      table1a.size = 1 ∧ table1a.capacity = 2 ∧
      table1a.load = Double.fin (1 / 2) ∧ table1a.load_factor = Double.fin (1 / 2) ∧
      Double.lt table1a.load table1a.load_factor = false ∧
      ¬ ((table1a.size : ℚ) / (table1a.capacity : ℚ) < 1 / 2) ∧
      ∀ (utils_hash : Int → Int → Int), HashInRange utils_hash →
        ∃ t', table1.Put utils_hash 2 1 "a" = some t' ∧
          Double.lt t'.load t'.load_factor = false := by
  have hload : table1a.load = Double.fin (1 / 2) := quotient_1_2
  refine ⟨new_table1, put_table1, rfl, rfl, hload, rfl, ?_, ?_, ?_⟩
  · rw [hload]
    simp [HashTable.load_factor, table1a, Double.lt]
  · simp [HashTable.size, HashTable.capacity, table1a]
  · intro utils_hash hr
    apply first_put_load_not_lt hr (le_refl 2) new_table1
    have h2 : (1 : Int).toNat * 2 = 2 := rfl
    rw [h2, quotient_1_2]
    simp [Double.lt]

/-- C4, amended. Growth invariant, for the constructions whose load factor is above the
load of one key in the once-grown table: for every valid construction with
`1 / (capacity * kGrowthCoefficient) < load_factor` (the quotient as a `double`),
`kGrowthCoefficient ≥ 2`, and every sequence of `Put` calls, each further `Put` returns
and `size() / capacity() < load_factor()` holds on the table it leaves, for the quotient
as `Put` computes it and, the load factor being a binary64 value, for the exact quotient.
For every other construction the inequality is false after the first `Put`. -/
theorem growth_invariant_amended {utils_hash : Int → Int → Int}
    (hr : HashInRange utils_hash) {kGrowthCoefficient : Nat} (hk : 2 ≤ kGrowthCoefficient)
    (capacity : Int) (load_factor : Double) (t0 : HashTable)
    (h0 : HashTable.new capacity load_factor = Except.ok t0) :
    (Double.lt (Double.quotient 1 (capacity.toNat * kGrowthCoefficient)) load_factor = true →
      ∀ (t : HashTable), PutReachableFrom utils_hash kGrowthCoefficient t0 t →
        ∀ (k : Int) (v : String),
          ∃ t', t.Put utils_hash kGrowthCoefficient k v = some t' ∧
            Double.lt t'.load t'.load_factor = true ∧
            ∀ (y : ℚ), t'.load_factor = Double.fin y → Double.roundBinary64 y = y →
              (t'.size : ℚ) / (t'.capacity : ℚ) < y) ∧
    (Double.lt (Double.quotient 1 (capacity.toNat * kGrowthCoefficient)) load_factor = false →
      ∀ (k : Int) (v : String),
        ∃ t', t0.Put utils_hash kGrowthCoefficient k v = some t' ∧
          Double.lt t'.load t'.load_factor = false) := by
  have hk0 : 0 < kGrowthCoefficient := by omega
  constructor
  · intro hcond t h k v
    have hw := (h.reachable_of_new h0).wf hr hk0
    obtain ⟨t', e, -, hw', -⟩ := Put_spec hr hk0 hw k v
    have h' : PutReachableFrom utils_hash kGrowthCoefficient t0 t' :=
      PutReachableFrom.put t t' k v h e
    obtain ⟨hlf, hn, -, hlt⟩ := h'.load_lt hr hk h0 hcond
    refine ⟨t', e, ?_, ?_⟩
    · rw [HashTable.load, HashTable.load_factor, hlf]
      exact hlt
    · intro y hy hrep
      rw [HashTable.load_factor, hlf] at hy
      rw [hy, quotient_of_pos _ _ hw'.pos, Double.lt, decide_eq_true_eq] at hlt
      have hlen : (0 : ℚ) < (t'.buckets_.length : ℚ) := by exact_mod_cast hw'.pos
      simp only [HashTable.size, HashTable.capacity, Int.cast_natCast]
      by_contra hcon
      rw [not_lt] at hcon
      rcases hn.eq_or_lt with hz | hpos
      · rw [← hz] at hlt hcon
        simp only [Int.cast_zero, zero_div] at hlt hcon
        simp only [Double.roundBinary64, if_true] at hlt
        linarith
      · have hq : (0 : ℚ) < (t'.num_keys_ : ℚ) / (t'.buckets_.length : ℚ) :=
          div_pos (by exact_mod_cast hpos) hlen
        have hy0 : 0 < y := by
          by_contra hy0
          rw [not_lt] at hy0
          have := (Double.roundBinary64_bounds hq).1
          have h2 : (0 : ℚ) < (2 : ℚ) ^ Int.log 2 ((t'.num_keys_ : ℚ) / (t'.buckets_.length : ℚ)) :=
            zpow_pos (by norm_num) _
          linarith
        have := Double.roundBinary64_mono hy0 hcon
        rw [hrep] at this
        linarith
  · intro hcond k v
    exact first_put_load_not_lt hr hk h0 hcond k v

theorem growth_invariant_amended_witness :
    HashInRange modHash ∧ HashTable.new 4 (Double.fin (3 / 4)) = Except.ok table4 ∧
      Double.lt (Double.quotient 1 ((4 : Int).toNat * 2)) (Double.fin (3 / 4)) = true ∧
      PutReachableFrom modHash 2 table4 table4ab ∧
      ∃ t', table4ab.Put modHash 2 3 "c" = some t' ∧ t'.capacity = 8 ∧
        Double.lt t'.load t'.load_factor = true ∧
        ∀ (y : ℚ), t'.load_factor = Double.fin y → Double.roundBinary64 y = y →
          (t'.size : ℚ) / (t'.capacity : ℚ) < y := by
  have hc : Double.lt (Double.quotient 1 ((4 : Int).toNat * 2)) (Double.fin (3 / 4)) = true := by
    have h8 : (4 : Int).toNat * 2 = 8 := rfl
    rw [h8, quotient_1_8]
    simp only [Double.lt, decide_eq_true_eq]
    norm_num
  have hp : PutReachableFrom modHash 2 table4 table4ab :=
    PutReachableFrom.put table4a table4ab 2 "b"
      (PutReachableFrom.put table4 table4a 1 "a" PutReachableFrom.refl put_table4) put_table4a
  obtain ⟨t', e, h1, h2⟩ :=
    (growth_invariant_amended modHash_inRange (le_refl 2) 4 (Double.fin (3 / 4)) table4
      new_table4).1 hc table4ab hp 3 "c"
  refine ⟨modHash_inRange, new_table4, hc, hp, t', e, ?_, h1, h2⟩
  rw [put_table4ab] at e
  cases e
  rfl

/-- C5 on the code: the table left by `HashTable(4, 0.75)`, `Put(1, "a")`, `Remove(1)` is
reachable, stores no pair in any bucket, and has `size() == 1`. -/
theorem size_counts_removed_pair :
    HashTable.new 4 (Double.fin (3 / 4)) = Except.ok table4 ∧
      table4.Put modHash 2 1 "a" = some table4a ∧
      table4a.Remove modHash 1 = some (some "a", table4r) ∧
      Reachable modHash 2 table4r ∧
      (table4r.buckets_.map List.length).sum = 0 ∧ table4r.size = 1 ∧
      table4r.size ≠ ((table4r.buckets_.map List.length).sum : Int) :=
  ⟨new_table4, put_table4, remove_table4a, reachable_table4r, rfl, rfl, by decide⟩

/-- C6. Resize preserves data: when `Put` of a key that is not stored triggers a resize on
a reachable table, that is when the test `static_cast<double>(num_keys_) /
buckets_.size() >= load_factor_` of `Put` holds after the insertion, the capacity is
multiplied by `kGrowthCoefficient`, the pairs of the new buckets are, as a multiset, the
old pairs plus the new one, each pair lies in the bucket `hash(key, new_capacity)`, and
every key retrievable before is retrievable with the same value. -/
theorem resize_preserves_data {utils_hash : Int → Int → Int} (hr : HashInRange utils_hash)
    {kGrowthCoefficient : Nat} (hk : 0 < kGrowthCoefficient) (t : HashTable)
    (h : Reachable utils_hash kGrowthCoefficient t) (k : Int) (v : String)
    (hnew : t.Search utils_hash k = some none)
    (htrig : Double.ge (Double.quotient (t.size + 1) t.buckets_.length) t.load_factor = true) :
    ∃ t', t.Put utils_hash kGrowthCoefficient k v = some t' ∧
      t'.capacity = t.capacity * kGrowthCoefficient ∧
      (Multiset.ofList (pairs t') = Multiset.ofList (pairs t) + {(k, v)}) ∧
      (∀ (i : Nat) (b : Bucket), t'.buckets_[i]? = some b →
        ∀ p ∈ b, utils_hash p.1 t'.capacity = (i : Int)) ∧
      ∀ (k' : Int) (v' : String), t.Search utils_hash k' = some (some v') →
        t'.Search utils_hash k' = some (some v') := by
  have hw := h.wf hr hk
  obtain ⟨t', e, -, hlen, -, hw', hp⟩ :=
    Put_fresh hr hk hw k v ((Search_none_iff hr hw k).mp hnew)
  have htrig' : Double.ge (Double.quotient (t.num_keys_ + 1) t.buckets_.length)
      t.load_factor_ = true := htrig
  rw [if_pos htrig'] at hlen
  refine ⟨t', e, ?_, ?_, hw'.placed, ?_⟩
  · simp [HashTable.capacity, hlen]
  · have : Multiset.ofList (pairs t) + {(k, v)} = Multiset.ofList (pairs t ++ [(k, v)]) := by
      rw [← Multiset.coe_add]; rfl
    rw [this]
    exact Multiset.coe_eq_coe.mpr hp
  · intro k' v' hs
    rw [Search_some_iff hr hw' k' v', hp.mem_iff]
    exact List.mem_append.mpr (Or.inl ((Search_some_iff hr hw k' v').mp hs))

theorem resize_preserves_data_witness :
    HashInRange modHash ∧ Reachable modHash 2 table4ab ∧
      table4ab.Search modHash 3 = some none ∧
      Double.ge (Double.quotient (table4ab.size + 1) table4ab.buckets_.length)
        table4ab.load_factor = true ∧
      ∃ t', table4ab.Put modHash 2 3 "c" = some t' ∧
        t'.capacity = table4ab.capacity * (2 : Nat) ∧
        (Multiset.ofList (pairs t') = Multiset.ofList (pairs table4ab) + {(3, "c")}) ∧
        (∀ (i : Nat) (b : Bucket), t'.buckets_[i]? = some b →
          ∀ p ∈ b, modHash p.1 t'.capacity = (i : Int)) ∧
        ∀ (k' : Int) (v' : String), table4ab.Search modHash k' = some (some v') →
          t'.Search modHash k' = some (some v') := by
  have ht : Double.ge (Double.quotient (table4ab.size + 1) table4ab.buckets_.length)
      table4ab.load_factor = true := by
    have a1 : table4ab.size + 1 = 3 := rfl
    have a2 : table4ab.buckets_.length = 4 := rfl
    have a3 : table4ab.load_factor = Double.fin (3 / 4) := rfl
    rw [a1, a2, a3, quotient_3_4]
    simp [Double.ge, Double.le]
  exact ⟨modHash_inRange, reachable_table4ab, search_table4ab, ht,
    resize_preserves_data modHash_inRange (by decide) table4ab reachable_table4ab 3 "c"
      search_table4ab ht⟩

/-- C7. Overwrite: on a reachable table that stores key `k`, `Put(k, v2)` leaves `size()`
and `capacity()` unchanged, whatever the load, and `Search(k)` then returns `v2`. -/
theorem overwrite_keeps_size {utils_hash : Int → Int → Int} (hr : HashInRange utils_hash)
    {kGrowthCoefficient : Nat} (hk : 0 < kGrowthCoefficient) (t : HashTable)
    (h : Reachable utils_hash kGrowthCoefficient t) (k : Int) (v1 v2 : String)
    (hs : t.Search utils_hash k = some (some v1)) :
    ∃ t', t.Put utils_hash kGrowthCoefficient k v2 = some t' ∧
      t'.size = t.size ∧ t'.capacity = t.capacity ∧
      t'.Search utils_hash k = some (some v2) := by
  have hw := h.wf hr hk
  obtain ⟨t', e, hn, hlen, -, hw', hq⟩ :=
    Put_overwrite hr kGrowthCoefficient hw k v2 v1 ((Search_some_iff hr hw k v1).mp hs)
  refine ⟨t', e, hn, ?_, (Search_some_iff hr hw' k v2).mpr ((hq (k, v2)).mpr (Or.inl rfl))⟩
  simp [HashTable.capacity, hlen]

theorem overwrite_keeps_size_witness :
    HashInRange modHash ∧ Reachable modHash 2 table1a ∧
      table1a.Search modHash 1 = some (some "a") ∧
      Double.ge table1a.load table1a.load_factor = true ∧
      ∃ t', table1a.Put modHash 2 1 "b" = some t' ∧ t'.size = table1a.size ∧
        t'.capacity = table1a.capacity ∧ t'.Search modHash 1 = some (some "b") :=
  ⟨modHash_inRange, reachable_table1a, search_table1a,
    by
      have hload : table1a.load = Double.fin (1 / 2) := quotient_1_2
      rw [hload]
      simp [HashTable.load_factor, table1a, Double.ge, Double.le],
    overwrite_keeps_size modHash_inRange (by decide) table1a reachable_table1a 1 "a" "b"
      search_table1a⟩

/-- C8 on the code: on the table left by `HashTable(4, 0.75)`, `Put(1, "a")`, `Remove(1)`,
`keys()` is empty while `size()` is `1`. -/
theorem keys_smaller_than_size :
    Reachable modHash 2 table4r ∧ table4r.keys = ∅ ∧ table4r.keys.card = 0 ∧
      table4r.size = 1 ∧ (table4r.keys.card : Int) ≠ table4r.size :=
  ⟨reachable_table4r, rfl, rfl, rfl, by decide⟩

/-- C9. Remove of an absent key is a no-op: when `Search(k)` is absent, `Remove(k)` returns
absent and the table it leaves is the same table: `size()`, `capacity()` and every bucket
are unchanged. -/
theorem remove_absent_noop (utils_hash : Int → Int → Int) (t : HashTable) (k : Int)
    (hs : t.Search utils_hash k = some none) :
    ∃ t', t.Remove utils_hash k = some (none, t') ∧ t'.size = t.size ∧
      t'.capacity = t.capacity ∧ t'.buckets_ = t.buckets_ ∧ t' = t :=
  ⟨t, Remove_absent utils_hash t k hs, rfl, rfl, rfl, rfl⟩

theorem remove_absent_noop_witness :
    table4.Search modHash 1 = some none ∧
      ∃ t', table4.Remove modHash 1 = some (none, t') ∧ t'.size = table4.size ∧
        t'.capacity = table4.capacity ∧ t'.buckets_ = table4.buckets_ ∧ t' = table4 :=
  ⟨search_table4, remove_absent_noop modHash table4 1 search_table4⟩

/-- C10 on the code: the guard `load_factor <= 0.0 || load_factor > 1.0` of the
constructor is false on NaN, so `HashTable(4, NaN)` constructs a table although NaN is
not in `(0, 1]`: no exception with the load-factor message is thrown. For every load
factor other than NaN the constructor fails exactly when `capacity <= 0` or the load
factor is outside `(0, 1]`, with the capacity message for a non-positive capacity and
the load-factor message otherwise, and a construction that succeeds yields `capacity`
empty buckets, `size() == 0`, `empty() == true` and the arguments as `capacity()` and
`load_factor()`. -/
theorem construction_accepts_nan :
    HashTable.new 4 Double.nan = Except.ok table4nan ∧
    (Double.lt (Double.fin 0) Double.nan = false ∧
      Double.le Double.nan (Double.fin 1) = false) ∧
    HashTable.new 4 Double.nan ≠ Except.error loadFactorError ∧
    (∀ (capacity : Int), 0 < capacity →
      ∃ t, HashTable.new capacity Double.nan = Except.ok t ∧ t.load_factor = Double.nan) ∧
    (∀ (capacity : Int) (load_factor : Double), load_factor ≠ Double.nan →
      (((∃ e, HashTable.new capacity load_factor = Except.error e) ↔
        (capacity ≤ 0 ∨ ¬ (Double.lt (Double.fin 0) load_factor = true ∧
          Double.le load_factor (Double.fin 1) = true))) ∧
      (capacity ≤ 0 → HashTable.new capacity load_factor = Except.error capacityError) ∧
      (0 < capacity → ¬ (Double.lt (Double.fin 0) load_factor = true ∧
          Double.le load_factor (Double.fin 1) = true) →
        HashTable.new capacity load_factor = Except.error loadFactorError))) ∧
    (∀ (capacity : Int) (load_factor : Double) (t : HashTable),
      HashTable.new capacity load_factor = Except.ok t →
        t.buckets_ = List.replicate capacity.toNat [] ∧ t.size = 0 ∧ t.empty = true ∧
        t.capacity = capacity ∧ t.load_factor = load_factor) ∧
    capacityError ≠ loadFactorError ∧
    HashTable.new 0 (Double.fin (1 / 2)) = Except.error capacityError ∧
    HashTable.new 4 (Double.fin 0) = Except.error loadFactorError ∧
    HashTable.new 4 (Double.fin (3 / 2)) = Except.error loadFactorError := by
  have hcap : ∀ (c : Int) (l : Double), c ≤ 0 →
      HashTable.new c l = Except.error capacityError := by
    intro c l hc
    simp [HashTable.new, hc]
  have hlf : ∀ (c : Int) (l : Double), 0 < c → l ≠ Double.nan →
      ¬ (Double.lt (Double.fin 0) l = true ∧ Double.le l (Double.fin 1) = true) →
      HashTable.new c l = Except.error loadFactorError := by
    intro c l hc hl hout
    have h1 : ¬ c ≤ 0 := by omega
    have h2 : (Double.le l (Double.fin 0) || Double.gt l (Double.fin 1)) = true := by
      cases l with
      | nan => exact absurd rfl hl
      | inf negative => cases negative <;> simp [Double.le, Double.gt, Double.lt]
      | fin y =>
        simp only [Double.lt, Double.le, Double.gt, decide_eq_true_eq, Bool.or_eq_true] at hout ⊢
        by_cases hy : y ≤ 0
        · exact Or.inl hy
        · exact Or.inr (by
            by_contra h3
            exact hout ⟨not_le.mp hy, not_lt.mp h3⟩)
    simp only [HashTable.new, if_neg h1, h2, if_true]
  have hok : ∀ (c : Int) (l : Double) (t : HashTable), HashTable.new c l = Except.ok t →
      t.buckets_ = List.replicate c.toNat [] ∧ t.size = 0 ∧ t.empty = true ∧
      t.capacity = c ∧ t.load_factor = l := by
    intro c l t h
    obtain ⟨hc, -, -, rfl⟩ := (new_ok_iff c l t).mp h
    refine ⟨rfl, rfl, rfl, ?_, rfl⟩
    simp only [HashTable.capacity, List.length_replicate]
    omega
  refine ⟨new_table4nan, ⟨rfl, rfl⟩, ?_, ?_, ?_, hok, by decide, hcap 0 _ (by decide), ?_, ?_⟩
  · rw [new_table4nan]
    intro h
    cases h
  · intro capacity hc
    exact ⟨⟨List.replicate capacity.toNat [], 0, Double.nan⟩,
      (new_ok_iff capacity Double.nan _).mpr ⟨hc, rfl, rfl, rfl⟩, rfl⟩
  · intro capacity load_factor hnan
    refine ⟨?_, hcap capacity load_factor, fun hc hout => hlf capacity load_factor hc hnan hout⟩
    constructor
    · rintro ⟨e, he⟩
      by_contra hcon
      simp only [not_or, not_le, not_not] at hcon
      have hg : Double.le load_factor (Double.fin 0) = false ∧
          Double.gt load_factor (Double.fin 1) = false := by
        cases load_factor with
        | nan => exact absurd rfl hnan
        | inf negative => cases negative <;> simp [Double.lt, Double.le] at hcon
        | fin y =>
          simp only [Double.lt, Double.le, Double.gt, decide_eq_true_eq,
            decide_eq_false_iff_not, not_le, not_lt] at hcon ⊢
          exact ⟨hcon.2.1, hcon.2.2⟩
      have hok' := (new_ok_iff capacity load_factor
        ⟨List.replicate capacity.toNat [], 0, load_factor⟩).mpr ⟨hcon.1, hg.1, hg.2, rfl⟩
      rw [he] at hok'
      cases hok'
    · intro h
      by_cases hc : capacity ≤ 0
      · exact ⟨_, hcap capacity load_factor hc⟩
      · rcases h with h | h
        · exact absurd h hc
        · exact ⟨_, hlf capacity load_factor (by omega) hnan h⟩
  · apply hlf 4 (Double.fin 0) (by decide) (by simp)
    simp [Double.lt]
  · apply hlf 4 (Double.fin (3 / 2)) (by decide) (by simp)
    simp only [Double.lt, Double.le, decide_eq_true_eq, not_and, not_le]
    intro _
    norm_num

/-- C11. Resize trigger: on a reachable table, `Put` of a key that is not stored raises
`size()` by exactly 1 and leaves the capacity `old_capacity * kGrowthCoefficient` when
`(old_size + 1) / old_capacity >= load_factor()`, the quotient being the `double`
quotient that `Put` computes, and `old_capacity` otherwise; with capacity 4, load factor
0.75 and growth coefficient 2, `Put(1, "a")`, `Put(2, "b")`, `Put(3, "c")` gives
`size() == 3`, `capacity() == 8` and finds the three values. -/
theorem resize_trigger {utils_hash : Int → Int → Int} (hr : HashInRange utils_hash)
    {kGrowthCoefficient : Nat} (hk : 0 < kGrowthCoefficient) (t : HashTable)
    (h : Reachable utils_hash kGrowthCoefficient t) :
    (∀ (k : Int) (v : String), t.Search utils_hash k = some none →
      ∃ t', t.Put utils_hash kGrowthCoefficient k v = some t' ∧ t'.size = t.size + 1 ∧
        t'.capacity =
          (if Double.ge (Double.quotient (t.size + 1) t.buckets_.length) t.load_factor = true
            then t.capacity * (kGrowthCoefficient : Int) else t.capacity)) ∧
    (∃ t0 t1 t2 t3, HashTable.new 4 (Double.fin (3 / 4)) = Except.ok t0 ∧
      t0.Put utils_hash 2 1 "a" = some t1 ∧ t1.Put utils_hash 2 2 "b" = some t2 ∧
      t2.Put utils_hash 2 3 "c" = some t3 ∧ t3.size = 3 ∧ t3.capacity = 8 ∧
      t3.Search utils_hash 1 = some (some "a") ∧ t3.Search utils_hash 2 = some (some "b") ∧
      t3.Search utils_hash 3 = some (some "c")) := by
  constructor
  · intro k v hs
    have hw := h.wf hr hk
    obtain ⟨t', e, hn, hlen, -, -, -⟩ := Put_fresh hr hk hw k v ((Search_none_iff hr hw k).mp hs)
    refine ⟨t', e, hn, ?_⟩
    by_cases hcond : Double.ge (Double.quotient (t.num_keys_ + 1) t.buckets_.length)
        t.load_factor_ = true
    · rw [if_pos hcond] at hlen
      have hcond' : Double.ge (Double.quotient (t.size + 1) t.buckets_.length)
          t.load_factor = true := hcond
      rw [if_pos hcond']
      simp [HashTable.capacity, hlen]
    · rw [if_neg hcond] at hlen
      have hcond' : ¬ (Double.ge (Double.quotient (t.size + 1) t.buckets_.length)
          t.load_factor = true) := hcond
      rw [if_neg hcond']
      simp [HashTable.capacity, hlen]
  · obtain ⟨t1, t2, t3, e1, e2, e3, -, -, h3⟩ := spec_example_run hr
    exact ⟨table4, t1, t2, t3, new_table4, e1, e2, e3, h3⟩

theorem resize_trigger_witness :
    HashInRange modHash ∧ Reachable modHash 2 table10 ∧
      table10.Search modHash 1 = some none ∧
      Double.quotient (table10.size + 1) table10.buckets_.length = table10.load_factor ∧
      ∃ t', table10.Put modHash 2 1 "a" = some t' ∧ t'.size = table10.size + 1 ∧
        t'.capacity =
          (if Double.ge (Double.quotient (table10.size + 1) table10.buckets_.length)
              table10.load_factor = true
            then table10.capacity * ((2 : Nat) : Int) else table10.capacity) ∧
        t'.capacity = 20 := by
  have hreach : Reachable modHash 2 table10 := Reachable.init 10 double_0_1 table10 new_table10
  have hs : table10.Search modHash 1 = some none := by
    simp [HashTable.Search, HashTable.hash, bucketAt, modHash, table10, List.replicate]
  have hq : Double.quotient (table10.size + 1) table10.buckets_.length = table10.load_factor :=
    quotient_1_10
  obtain ⟨t', e, h1, h2⟩ := (resize_trigger modHash_inRange (by decide) table10 hreach).1 1 "a" hs
  refine ⟨modHash_inRange, hreach, hs, hq, t', e, h1, h2, ?_⟩
  obtain ⟨t'', e', -, h3⟩ := put_table10
  rw [e] at e'
  cases e'
  exact h3

/-- C12. Key placement and uniqueness: in every table reachable from a valid construction
by `Put` and `Remove` calls, every stored pair `(k, v)` lies in the bucket with index
`hash(k, capacity())`, and no key occurs in more than one pair of the table. -/
theorem key_placement_and_uniqueness {utils_hash : Int → Int → Int}
    (hr : HashInRange utils_hash) {kGrowthCoefficient : Nat} (hk : 0 < kGrowthCoefficient)
    (t : HashTable) (h : Reachable utils_hash kGrowthCoefficient t) :
    (∀ (i : Nat) (b : Bucket), t.buckets_[i]? = some b →
      ∀ p ∈ b, utils_hash p.1 t.capacity = (i : Int)) ∧
    ((t.buckets_.flatten).map Prod.fst).Nodup ∧
    (∀ p ∈ t.buckets_.flatten, ∀ q ∈ t.buckets_.flatten, p.1 = q.1 → p = q) := by
  have hw := h.wf hr hk
  exact ⟨hw.placed, hw.nodup, fun p hp q hq hpq => eq_of_key_eq hw.nodup hp hq hpq⟩

theorem key_placement_and_uniqueness_witness :
    HashInRange modHash ∧ Reachable modHash 2 table8 ∧
      (∀ (i : Nat) (b : Bucket), table8.buckets_[i]? = some b →
        ∀ p ∈ b, modHash p.1 table8.capacity = (i : Int)) ∧
      ((table8.buckets_.flatten).map Prod.fst).Nodup ∧
      (∀ p ∈ table8.buckets_.flatten, ∀ q ∈ table8.buckets_.flatten, p.1 = q.1 → p = q) :=
  ⟨modHash_inRange, reachable_table8,
    key_placement_and_uniqueness modHash_inRange (by decide) table8 reachable_table8⟩

/-- C13. No operation other than construction fails: on every reachable table
`capacity() >= 1`, the bucket index of every key lies in `[0, capacity())`, the index of
every pair in the grown bucket sequence lies in `[0, capacity() * kGrowthCoefficient)`,
and `Search`, `Put` and `Remove` return without an indexing failure. -/
theorem operations_never_fail {utils_hash : Int → Int → Int}
    (hr : HashInRange utils_hash) {kGrowthCoefficient : Nat} (hk : 0 < kGrowthCoefficient)
    (t : HashTable) (h : Reachable utils_hash kGrowthCoefficient t) (k : Int) (v : String) :
    1 ≤ t.capacity ∧
    (0 ≤ t.hash utils_hash k ∧ t.hash utils_hash k < (t.buckets_.length : Int)) ∧
    (∀ (key : Int), 0 ≤ utils_hash key ((t.buckets_.length * kGrowthCoefficient : Nat) : Int) ∧
      utils_hash key ((t.buckets_.length * kGrowthCoefficient : Nat) : Int) <
        ((t.buckets_.length * kGrowthCoefficient : Nat) : Int)) ∧
    (∃ r, t.Search utils_hash k = some r) ∧
    (∃ t', t.Put utils_hash kGrowthCoefficient k v = some t') ∧
    (∃ r t', t.Remove utils_hash k = some (r, t')) := by
  have hw := h.wf hr hk
  have hpos := hw.pos
  have hcap : (1 : Int) ≤ (t.buckets_.length : Int) := by omega
  refine ⟨hcap, hr k _ hcap, ?_, Search_total hr hw k, ?_, Remove_total hr hw k⟩
  · intro key
    have : 0 < t.buckets_.length * kGrowthCoefficient := Nat.mul_pos hpos hk
    exact hr key _ (by omega)
  · obtain ⟨t', e, -⟩ := Put_spec hr hk hw k v
    exact ⟨t', e⟩

theorem operations_never_fail_witness :
    HashInRange modHash ∧ Reachable modHash 2 table4a ∧
      1 ≤ table4a.capacity ∧
      (0 ≤ table4a.hash modHash 1 ∧ table4a.hash modHash 1 < (table4a.buckets_.length : Int)) ∧
      (∀ (key : Int), 0 ≤ modHash key ((table4a.buckets_.length * 2 : Nat) : Int) ∧
        modHash key ((table4a.buckets_.length * 2 : Nat) : Int) <
          ((table4a.buckets_.length * 2 : Nat) : Int)) ∧
      (∃ r, table4a.Search modHash 1 = some r) ∧
      (∃ t', table4a.Put modHash 2 1 "b" = some t') ∧
      (∃ r t', table4a.Remove modHash 1 = some (r, t')) :=
  ⟨modHash_inRange, reachable_table4a,
    operations_never_fail modHash_inRange (by decide) table4a reachable_table4a 1 "b"⟩

/-- C14. Remove deletes exactly the matching pair: on a reachable table that stores key
`k`, `Remove(k)` leaves the bucket `hash(k, capacity())` equal to the old bucket without
its one pair with key `k`, the other pairs in their order (the removal by pair equality
of the code is the removal by key equality), every other bucket unchanged, `capacity()`
and `load_factor()` unchanged, and `Search(k')` unchanged for every `k' ≠ k`. -/
theorem remove_deletes_exactly_the_pair {utils_hash : Int → Int → Int}
    (hr : HashInRange utils_hash) {kGrowthCoefficient : Nat} (hk : 0 < kGrowthCoefficient)
    (t : HashTable) (h : Reachable utils_hash kGrowthCoefficient t) (k : Int) (v : String)
    (hs : t.Search utils_hash k = some (some v)) :
    ∃ (t' : HashTable) (b l r : Bucket),
      t.Remove utils_hash k = some (some v, t') ∧
      t.buckets_[(t.hash utils_hash k).toNat]? = some b ∧
      b = l ++ (k, v) :: r ∧ (∀ q ∈ l ++ r, q.1 ≠ k) ∧
      t'.buckets_[(t.hash utils_hash k).toNat]? = some (l ++ r) ∧
      l ++ r = b.filter (fun q => decide (q.1 ≠ k)) ∧
      (∀ (j : Nat), j ≠ (t.hash utils_hash k).toNat → t'.buckets_[j]? = t.buckets_[j]?) ∧
      t'.capacity = t.capacity ∧ t'.load_factor = t.load_factor ∧
      ∀ (k' : Int), k' ≠ k → t'.Search utils_hash k' = t.Search utils_hash k' := by
  have hw := h.wf hr hk
  have hm := (Search_some_iff hr hw k v).mp hs
  obtain ⟨b, l, r, hb, hlr, hne, e⟩ := Remove_present_eq hr hw k v hm
  obtain ⟨t'', e', hw', hq⟩ := Remove_present hr hw k v hm
  rw [e] at e'
  simp only [Option.some.injEq, Prod.mk.injEq, true_and] at e'
  have hlt : (utils_hash k (t.buckets_.length : Int)).toNat < t.buckets_.length :=
    (List.getElem?_eq_some.mp hb).1
  refine ⟨_, b, l, r, e, hb, hlr, hne, ?_, ?_, ?_, ?_, rfl, ?_⟩
  · simp only [HashTable.hash]
    rw [List.getElem?_set_self hlt]
  · rw [hlr, filter_key_ne l r k v hne]
  · intro j hj
    simp only [HashTable.hash] at hj ⊢
    rw [List.getElem?_set_ne (Ne.symm hj)]
  · simp [HashTable.capacity]
  · intro k' hk'
    rw [e']
    apply Search_congr hr hw hw' k'
    intro v'
    rw [hq (k', v')]
    exact ⟨fun hx => hx.2, fun hx => ⟨hk', hx⟩⟩

theorem remove_deletes_exactly_the_pair_witness :
    HashInRange modHash ∧ Reachable modHash 2 table4a ∧
      table4a.Search modHash 1 = some (some "a") ∧
      ∃ (t' : HashTable) (b l r : Bucket),
        table4a.Remove modHash 1 = some (some "a", t') ∧
        table4a.buckets_[(table4a.hash modHash 1).toNat]? = some b ∧
        b = l ++ (1, "a") :: r ∧ (∀ q ∈ l ++ r, q.1 ≠ 1) ∧
        t'.buckets_[(table4a.hash modHash 1).toNat]? = some (l ++ r) ∧
        l ++ r = b.filter (fun q => decide (q.1 ≠ 1)) ∧
        (∀ (j : Nat), j ≠ (table4a.hash modHash 1).toNat →
          t'.buckets_[j]? = table4a.buckets_[j]?) ∧
        t'.capacity = table4a.capacity ∧ t'.load_factor = table4a.load_factor ∧
        ∀ (k' : Int), k' ≠ 1 → t'.Search modHash k' = table4a.Search modHash k' :=
  ⟨modHash_inRange, reachable_table4a, search_table4a,
    remove_deletes_exactly_the_pair modHash_inRange (by decide) table4a reachable_table4a
      1 "a" search_table4a⟩

/-- C15. The method `values()` lists one value per stored pair in bucket-then-insertion
order: on every reachable table it is the concatenation, over the buckets in index order,
of the values of each bucket in stored order; it has as many entries as `keys()` has
elements, and its entries are, as a multiset, the results of `Search(k)` over the keys
of `keys()`. -/
theorem values_in_bucket_order {utils_hash : Int → Int → Int}
    (hr : HashInRange utils_hash) {kGrowthCoefficient : Nat} (hk : 0 < kGrowthCoefficient)
    (t : HashTable) (h : Reachable utils_hash kGrowthCoefficient t) :
    t.values = (t.buckets_.map fun b => b.map Prod.snd).flatten ∧
    t.values.length = t.keys.card ∧
    Multiset.map (fun k => t.Search utils_hash k) t.keys.val =
      Multiset.ofList (t.values.map fun v => some (some v)) := by
  have hw := h.wf hr hk
  refine ⟨?_, ?_, ?_⟩
  · rw [values_eq, pairs, List.map_flatten]
  · rw [values_eq, keys_eq, List.toFinset_card_of_nodup hw.nodup]
    simp
  · rw [values_eq, keys_eq, List.toFinset_val, hw.nodup.dedup, Multiset.map_coe,
      List.map_map, List.map_map]
    congr 1
    apply List.map_congr_left
    intro p hp
    exact (Search_some_iff hr hw p.1 p.2).mpr hp

theorem values_in_bucket_order_witness :
    HashInRange modHash ∧ Reachable modHash 2 table8 ∧
      table8.values = ["a", "b", "c"] ∧
      table8.values = (table8.buckets_.map fun b => b.map Prod.snd).flatten ∧
      table8.values.length = table8.keys.card ∧
      Multiset.map (fun k => table8.Search modHash k) table8.keys.val =
        Multiset.ofList (table8.values.map fun v => some (some v)) :=
  ⟨modHash_inRange, reachable_table8, rfl,
    values_in_bucket_order modHash_inRange (by decide) table8 reachable_table8⟩

/-- C16. The method `Put` does not disturb other keys: on every reachable table, `Put(k, v)`
returns and `Search(k')` on the table it leaves equals `Search(k')` before, for every
`k' ≠ k`, whether `Put` overwrites, appends or re-hashes. -/
theorem put_keeps_other_keys {utils_hash : Int → Int → Int}
    (hr : HashInRange utils_hash) {kGrowthCoefficient : Nat} (hk : 0 < kGrowthCoefficient)
    (t : HashTable) (h : Reachable utils_hash kGrowthCoefficient t) (k : Int) (v : String) :
    ∃ t', t.Put utils_hash kGrowthCoefficient k v = some t' ∧
      ∀ (k' : Int), k' ≠ k → t'.Search utils_hash k' = t.Search utils_hash k' := by
  have hw := h.wf hr hk
  obtain ⟨t', e, -, hw', hq⟩ := Put_spec hr hk hw k v
  refine ⟨t', e, ?_⟩
  intro k' hk'
  apply Search_congr hr hw hw' k'
  intro v'
  rw [hq (k', v')]
  constructor
  · rintro (hx | hx)
    · exact absurd (congrArg Prod.fst hx) hk'
    · exact hx.2
  · intro hx
    exact Or.inr ⟨hk', hx⟩

theorem put_keeps_other_keys_witness :
    HashInRange modHash ∧ Reachable modHash 2 table4ab ∧
      ∃ t', table4ab.Put modHash 2 3 "c" = some t' ∧
        ∀ (k' : Int), k' ≠ 3 → t'.Search modHash k' = table4ab.Search modHash k' :=
  ⟨modHash_inRange, reachable_table4ab,
    put_keeps_other_keys modHash_inRange (by decide) table4ab reachable_table4ab 3 "c"⟩

/-- C17. The method `ContainsKey` agrees with `keys()`: on every reachable table
`ContainsKey(k)` returns, it is true exactly when `Search(k)` is present, and `Search(k)`
is present exactly when `k` is an element of `keys()`. -/
theorem containsKey_agrees_with_keys {utils_hash : Int → Int → Int}
    (hr : HashInRange utils_hash) {kGrowthCoefficient : Nat} (hk : 0 < kGrowthCoefficient)
    (t : HashTable) (h : Reachable utils_hash kGrowthCoefficient t) (k : Int) :
    (∃ c, t.ContainsKey utils_hash k = some c) ∧
    (t.ContainsKey utils_hash k = some true ↔ ∃ v, t.Search utils_hash k = some (some v)) ∧
    ((∃ v, t.Search utils_hash k = some (some v)) ↔ k ∈ t.keys) := by
  have hw := h.wf hr hk
  obtain ⟨r, hs⟩ := Search_total hr hw k
  refine ⟨⟨r.isSome, by simp [HashTable.ContainsKey, hs]⟩, ?_, ?_⟩
  · cases r with
    | none => simp [HashTable.ContainsKey, hs]
    | some v => simp [HashTable.ContainsKey, hs]
  · rw [keys_eq, List.mem_toFinset, List.mem_map]
    constructor
    · rintro ⟨v, hv⟩
      exact ⟨(k, v), (Search_some_iff hr hw k v).mp hv, rfl⟩
    · rintro ⟨p, hp, hpk⟩
      refine ⟨p.2, (Search_some_iff hr hw k p.2).mpr ?_⟩
      rw [← hpk]
      exact hp

theorem containsKey_agrees_with_keys_witness :
    HashInRange modHash ∧ Reachable modHash 2 table4a ∧
      (∃ c, table4a.ContainsKey modHash 1 = some c) ∧
      (table4a.ContainsKey modHash 1 = some true ↔
        ∃ v, table4a.Search modHash 1 = some (some v)) ∧
      ((∃ v, table4a.Search modHash 1 = some (some v)) ↔ (1 : Int) ∈ table4a.keys) :=
  ⟨modHash_inRange, reachable_table4a,
    containsKey_agrees_with_keys modHash_inRange (by decide) table4a reachable_table4a 1⟩

/-- C18. Capacity is monotone and the load factor is constant: on every table reached from
the construction `HashTable(capacity, load_factor)` by `Put` and `Remove` calls,
`load_factor()` is the constructor argument and `capacity()` is at least the constructor
argument, and every further `Put` or `Remove` leaves a capacity at least as large and
the same load factor. -/
theorem capacity_monotone_load_factor_constant {utils_hash : Int → Int → Int}
    (hr : HashInRange utils_hash) {kGrowthCoefficient : Nat} (hk : 0 < kGrowthCoefficient)
    (capacity : Int) (load_factor : Double) (t0 t : HashTable)
    (h0 : HashTable.new capacity load_factor = Except.ok t0)
    (h : ReachableFrom utils_hash kGrowthCoefficient t0 t) :
    t.load_factor = load_factor ∧ capacity ≤ t.capacity ∧
    (∀ (k : Int) (v : String) (t' : HashTable),
      t.Put utils_hash kGrowthCoefficient k v = some t' →
        t.capacity ≤ t'.capacity ∧ t'.load_factor = load_factor) ∧
    (∀ (k : Int) (r : Option String) (t' : HashTable),
      t.Remove utils_hash k = some (r, t') →
        t.capacity ≤ t'.capacity ∧ t'.load_factor = load_factor) := by
  obtain ⟨hc, -, -, h0'⟩ := (new_ok_iff capacity load_factor t0).mp h0
  obtain ⟨hlen, hlf⟩ := h.frame hr hk h0
  have hw := (h.toReachable h0).wf hr hk
  have hlf0 : t0.load_factor_ = load_factor := by rw [h0']
  have hlen0 : (t0.buckets_.length : Int) = capacity := by
    rw [h0']
    simp only [List.length_replicate]
    omega
  refine ⟨by rw [HashTable.load_factor, hlf, hlf0], ?_, ?_, ?_⟩
  · simp only [HashTable.capacity]
    omega
  · intro k v t' hput
    obtain ⟨h1, h2⟩ := Put_frame hr hk hw k v hput
    refine ⟨?_, by rw [HashTable.load_factor, h2, hlf, hlf0]⟩
    simp only [HashTable.capacity]
    omega
  · intro k r t' hrem
    obtain ⟨-, h2, h3⟩ := Remove_frame utils_hash t t' k r hrem
    refine ⟨?_, by rw [HashTable.load_factor, h2, hlf, hlf0]⟩
    simp only [HashTable.capacity]
    omega

theorem capacity_monotone_load_factor_constant_witness :
    HashInRange modHash ∧ HashTable.new 4 (Double.fin (3 / 4)) = Except.ok table4 ∧
      ReachableFrom modHash 2 table4 table8 ∧
      table8.load_factor = Double.fin (3 / 4) ∧ (4 : Int) ≤ table8.capacity ∧
      (∀ (k : Int) (v : String) (t' : HashTable), table8.Put modHash 2 k v = some t' →
        table8.capacity ≤ t'.capacity ∧ t'.load_factor = Double.fin (3 / 4)) ∧
      (∀ (k : Int) (r : Option String) (t' : HashTable),
        table8.Remove modHash k = some (r, t') →
          table8.capacity ≤ t'.capacity ∧ t'.load_factor = Double.fin (3 / 4)) :=
  ⟨modHash_inRange, new_table4, reachableFrom_table8,
    capacity_monotone_load_factor_constant modHash_inRange (by decide) 4 (Double.fin (3 / 4)) table4 table8
      new_table4 reachableFrom_table8⟩

end itis
